import Mathlib

/-!
# libuipc: lifecycle contract, backend subsystem registry, simplicial complexes

A shallow embedding of

* `src/core/core/world.cpp` (`World`),
* `src/uipc/backends/cuda/sim_system_collection.cpp` (`SimSystemCollection`),
* `src/uipc/geometry/simplicial_complex.cpp` and
  `src/uipc/geometry/utils/apply_instances.cpp` (`SimplicialComplex`),

and a model of shared attribute storage, followed by the properties proved
about them.  Collaborators whose code is not part of the embedded sources (the
engine, the sanity checkers, the build step of a subsystem) are parameters of
the model; every call made on them is recorded in a ghost call log or counter
so that "is invoked exactly once" and "is not invoked" can be stated.
-/

namespace uipc

/-! ## `uipc::core::World` -/

namespace core

/-- Values of the enum returned by `SanityCheckerCollection::check()`. -/
inductive SanityCheckResult where
  | Success
  | Warning
  | Error
deriving DecidableEq, Repr

/-- What `World` observes of a `Scene`: its identity, whether
`info()["sanity_check"]["enable"] == true`, and the result the sanity checkers
compute for it. -/
structure Scene where
  id : Nat
  sanity_check_enable : Bool
  check_result : SanityCheckResult
deriving DecidableEq, Repr

/-- The engine behind `m_engine`, over an arbitrary engine state `E`.
`has_error` is `status().has_error()`. -/
structure Engine (E : Type) where
  init : Scene → E → E
  advance : E → E
  sync : E → E
  retrieve : E → E
  backward : E → E
  dump : E → Bool × E
  recover : Nat → E → Bool × E
  frame : E → Nat
  has_error : E → Bool

/-- Calls that `World` makes on its collaborators (ghost log entries). -/
inductive Event where
  | sanity_checkers_init (scene : Nat)
  | sanity_checkers_check (scene : Nat)
  | scene_init (scene : Nat)
  | engine_init
  | engine_advance
  | engine_sync
  | engine_retrieve
  | engine_backward
  | engine_dump
  | engine_recover (aim_frame : Nat)
  | engine_frame
  | engine_status
deriving DecidableEq, Repr

/-- Is the event a call on the engine? -/
def Event.onEngine : Event → Bool
  | .sanity_checkers_init _ => false
  | .sanity_checkers_check _ => false
  | .scene_init _ => false
  | _ => true

/-- The members of `World` (`m_engine` is held by pointer in the source; here
the engine state itself is threaded), plus the ghost log `calls`, oldest call
first. -/
structure World (E : Type) where
  m_engine : E
  m_scene : Option Scene
  m_valid : Bool
  calls : List Event

namespace World

variable {E : Type}

/-- Append entries to the ghost log. -/
def log (w : World E) (es : List Event) : World E :=
  { w with calls := w.calls ++ es }

/-- Embedding of `World::sanity_check(Scene& s)`. -/
def sanity_check (w : World E) (s : Scene) : World E :=
  if s.sanity_check_enable = true then
    let w := w.log [.sanity_checkers_init s.id]
    let w := w.log [.sanity_checkers_check s.id]
    match s.check_result with
    | .Success => w
    | .Warning => w
    | .Error => { w with m_valid := false }
  else w

/-- Embedding of `World::init(Scene& s)`. -/
def init (eng : Engine E) (w : World E) (s : Scene) : World E :=
  let w := w.sanity_check s
  if !w.m_valid then w
  else
    let w := { w with m_scene := some s }
    let w := w.log [.scene_init s.id]
    let w := { w.log [.engine_init] with m_engine := eng.init s w.m_engine }
    let w := w.log [.engine_status]
    if eng.has_error w.m_engine then { w with m_valid := false } else w

/-- Embedding of `World::advance()`. -/
def advance (eng : Engine E) (w : World E) : World E :=
  if !w.m_valid then w
  else
    let w := { w.log [.engine_advance] with m_engine := eng.advance w.m_engine }
    let w := w.log [.engine_status]
    if eng.has_error w.m_engine then { w with m_valid := false } else w

/-- Embedding of `World::sync()`. -/
def sync (eng : Engine E) (w : World E) : World E :=
  if !w.m_valid then w
  else
    let w := { w.log [.engine_sync] with m_engine := eng.sync w.m_engine }
    let w := w.log [.engine_status]
    if eng.has_error w.m_engine then { w with m_valid := false } else w

/-- Embedding of `World::retrieve()`. -/
def retrieve (eng : Engine E) (w : World E) : World E :=
  if !w.m_valid then w
  else
    let w := { w.log [.engine_retrieve] with m_engine := eng.retrieve w.m_engine }
    let w := w.log [.engine_status]
    if eng.has_error w.m_engine then { w with m_valid := false } else w

/-- Embedding of `World::backward()`. -/
def backward (eng : Engine E) (w : World E) : World E :=
  if !w.m_valid then w
  else
    let w := { w.log [.engine_backward] with m_engine := eng.backward w.m_engine }
    let w := w.log [.engine_status]
    if eng.has_error w.m_engine then { w with m_valid := false } else w

/-- Embedding of `World::dump()`. -/
def dump (eng : Engine E) (w : World E) : Bool × World E :=
  if !w.m_valid then (false, w)
  else
    let success := (eng.dump w.m_engine).1
    let w := { w.log [.engine_dump] with m_engine := (eng.dump w.m_engine).2 }
    let has_error := eng.has_error w.m_engine
    let w := w.log [.engine_status]
    let w := if has_error then { w with m_valid := false } else w
    (success && !has_error, w)

/-- Embedding of `World::recover(SizeT aim_frame)`. -/
def recover (eng : Engine E) (w : World E) (aim_frame : Nat) : Bool × World E :=
  if w.m_scene.isNone then (false, w)
  else if !w.m_valid then (false, w)
  else
    let success := (eng.recover aim_frame w.m_engine).1
    let w := { w.log [.engine_recover aim_frame] with
               m_engine := (eng.recover aim_frame w.m_engine).2 }
    let has_error := eng.has_error w.m_engine
    let w := w.log [.engine_status]
    let w := if has_error then { w with m_valid := false } else w
    (success && !has_error, w)

/-- Embedding of `World::frame() const`; the world returned differs from `w`
in the ghost log only. -/
def frame (eng : Engine E) (w : World E) : Nat × World E :=
  if !w.m_valid then (0, w)
  else (eng.frame w.m_engine, w.log [.engine_frame])

end World

/-- One call on the public interface of `World`. -/
inductive Call where
  | init (s : Scene)
  | advance
  | sync
  | retrieve
  | backward
  | dump
  | recover (aim_frame : Nat)
  | frame
deriving DecidableEq, Repr

/-- What a call hands back to the caller. -/
inductive Ret where
  | void
  | bool (b : Bool)
  | size (n : Nat)
deriving DecidableEq, Repr

/-- What a call hands back when it is skipped: nothing for the `void`
operations, `false` for `dump` and `recover`, `0` for `frame`. -/
def Call.skipped : Call → Ret
  | .dump => .bool false
  | .recover _ => .bool false
  | .frame => .size 0
  | _ => .void

/-- The sanity-checker calls that a call makes whatever the validity of the
world: only `init` on a scene with the check enabled makes any. -/
def Call.checkerEvents : Call → List Event
  | .init s =>
      if s.sanity_check_enable = true then
        [.sanity_checkers_init s.id, .sanity_checkers_check s.id]
      else []
  | _ => []

namespace World

variable {E : Type}

/-- Dispatch of one call. -/
def call (eng : Engine E) (w : World E) : Call → Ret × World E
  | .init s => (.void, w.init eng s)
  | .advance => (.void, w.advance eng)
  | .sync => (.void, w.sync eng)
  | .retrieve => (.void, w.retrieve eng)
  | .backward => (.void, w.backward eng)
  | .dump => (.bool (w.dump eng).1, (w.dump eng).2)
  | .recover n => (.bool (w.recover eng n).1, (w.recover eng n).2)
  | .frame => (.size (w.frame eng).1, (w.frame eng).2)

/-- A sequence of calls, made one after the other; the returned values are
collected in call order. -/
def run (eng : Engine E) (w : World E) : List Call → List Ret × World E
  | [] => ([], w)
  | c :: cs =>
      let r := w.call eng c
      let rs := run eng r.2 cs
      (r.1 :: rs.1, rs.2)

/-- The world reached after a sequence of calls. -/
def after (eng : Engine E) (w : World E) (cs : List Call) : World E :=
  (w.run eng cs).2

end World

/-- A small engine used to run the model on concrete inputs: its state is the
frame counter, `advance` steps it, `backward` clamps it to `1`, `recover`
succeeds exactly on frames already reached, and the status reports an error
once the counter has reached `2`. -/
def counterEngine : Engine Nat where
  init := fun _ e => e
  advance := fun e => e + 1
  sync := fun e => e
  retrieve := fun e => e
  backward := fun e => min e 1
  dump := fun e => (true, e)
  recover := fun n e => (decide (n ≤ e), if n ≤ e then n else e)
  frame := fun e => e
  has_error := fun e => decide (2 ≤ e)

/-- A scene whose sanity check is enabled and passes. -/
def sceneOk : Scene := ⟨1, true, .Success⟩

/-- A scene whose sanity check is enabled and passes with warnings. -/
def sceneWarn : Scene := ⟨2, true, .Warning⟩

/-- A scene whose sanity check is enabled and fails. -/
def sceneBad : Scene := ⟨3, true, .Error⟩

/-- A freshly constructed world over `counterEngine`: no scene bound, valid. -/
def freshWorld : World Nat := ⟨0, none, true, []⟩

/-- A scene whose sanity check is switched off, and would fail if it ran. -/
def sceneUnchecked : Scene := ⟨4, false, .Error⟩

end core

end uipc

/-! ## `uipc::backend::cuda::SimSystemCollection` -/

namespace uipc

namespace backend

namespace cuda

/-- How one run of a subsystem's build step ends: it returns, it throws a
`SimSystemException` (the designated soft build failure, with its `what()`),
or it throws anything else. -/
inductive BuildSignal where
  | done
  | soft (what : String)
  | other (what : String)
deriving DecidableEq, Repr

/-- Did the build step return normally? -/
def BuildSignal.isDone : BuildSignal → Bool
  | .done => true
  | _ => false

/-- Did the build step throw something that is not a `SimSystemException`? -/
def BuildSignal.isOther : BuildSignal → Bool
  | .other _ => true
  | _ => false

/-- What the collection uses of an `ISimSystem`: `name()`, the dynamic type
`typeid(s)`, the validity flag behind `is_valid()` / `set_invalid()`,
`is_engine_aware()`, the behaviour of its build step, and a ghost counter of
the `build()` calls received. -/
structure ISimSystem where
  name : String
  type_info : Nat
  m_valid : Bool
  engine_aware : Bool
  do_build : BuildSignal
  builds : Nat
deriving DecidableEq, Repr

namespace ISimSystem

/-- Accessor `is_valid()`. -/
def is_valid (s : ISimSystem) : Bool := s.m_valid

/-- Mutator `set_invalid()`. -/
def set_invalid (s : ISimSystem) : ISimSystem := { s with m_valid := false }

/-- One call of `build()`: the signal it ends with and the subsystem
afterwards. -/
def build (s : ISimSystem) : BuildSignal × ISimSystem :=
  (s.do_build, { s with builds := s.builds + 1 })

/-- Modelled from the spec: `ISimSystem::to_json()` is not part of the embedded
sources; the diagnostic entry of a subsystem is its name and whether it is
engine-aware. -/
def to_json (s : ISimSystem) : String × Bool := (s.name, s.engine_aware)

end ISimSystem

/-- The container behind `m_sim_systems`: entries in increasing key order, as
the iteration of the map yields them. -/
abbrev SimSystemMap := List (Nat × ISimSystem)

namespace SimSystemMap

/-- Lookup `find(tid)`: the entry stored under the key, if any. -/
def find (k : Nat) : SimSystemMap → Option ISimSystem
  | [] => none
  | (k1, v) :: rest => if k1 = k then some v else find k rest

/-- Insertion `insert({tid, system})`: the entry is placed in key order; an
entry already stored under the key is kept and nothing is inserted. -/
def insert (k : Nat) (v : ISimSystem) : SimSystemMap → SimSystemMap
  | [] => [(k, v)]
  | (k1, v1) :: rest =>
      if k < k1 then (k, v) :: (k1, v1) :: rest
      else if k = k1 then (k1, v1) :: rest
      else (k1, v1) :: insert k v rest

end SimSystemMap

deriving instance DecidableEq for Except

/-- The class `SimSystemCollection`. -/
structure SimSystemCollection where
  m_sim_systems : SimSystemMap
deriving DecidableEq, Repr

namespace SimSystemCollection

/-- The registry key `U64 tid = typeid(s).hash_code()`, for a given
implementation `hash_code` of `std::type_info::hash_code`. -/
def tid (hash_code : Nat → Nat) (s : ISimSystem) : Nat :=
  hash_code s.type_info % 2 ^ 64

/-- The message of the assertion in `create`. -/
def already_exists (existing yours : String) : String :=
  "SimSystem (" ++ existing ++ ") already exists, yours " ++ yours
    ++ ", why can it happen?"

/-- Embedding of `SimSystemCollection::create(U<ISimSystem> system)`.
Modelled from the spec: the macro `UIPC_ASSERT` is not part of the embedded
sources; a failed assertion is a fatal contract violation, rendered as
`Except.error` with the assertion message, and the statement after it is not
reached. -/
def create (hash_code : Nat → Nat) (c : SimSystemCollection) (system : ISimSystem) :
    Except String Unit × SimSystemCollection :=
  let tid := tid hash_code system
  match c.m_sim_systems.find tid with
  | some it => (.error (already_exists it.name system.name), c)
  | none => (.ok (), ⟨c.m_sim_systems.insert tid system⟩)

/-- Successive `create` calls, as the backend makes them while it registers
its subsystems; the first fatal failure ends the sequence. -/
def create_all (hash_code : Nat → Nat) (c : SimSystemCollection) :
    List ISimSystem → Except String Unit × SimSystemCollection
  | [] => (.ok (), c)
  | s :: rest =>
      match create hash_code c s with
      | (.ok _, c1) => create_all hash_code c1 rest
      | (.error msg, c1) => (.error msg, c1)

/-- Embedding of `SimSystemCollection::to_json() const`. -/
def to_json (c : SimSystemCollection) : List (String × Bool) :=
  c.m_sim_systems.foldl (fun j kv => j ++ [kv.2.to_json]) []

/-- The loop of `cleanup_invalid_systems`, from the iterator position whose
remaining entries are given. -/
def cleanup_loop : SimSystemMap → SimSystemMap
  | [] => []
  | (k, v) :: rest =>
      if !v.is_valid then cleanup_loop rest
      else (k, v) :: cleanup_loop rest

/-- Embedding of `SimSystemCollection::cleanup_invalid_systems()`. -/
def cleanup_invalid_systems (c : SimSystemCollection) : SimSystemCollection :=
  ⟨cleanup_loop c.m_sim_systems⟩

/-- The loop of `build_systems` over the remaining entries: the outcome (an
exception that is not a `SimSystemException` leaves the loop and the function)
and the entries afterwards. -/
def build_loop : SimSystemMap → Except String Unit × SimSystemMap
  | [] => (.ok (), [])
  | (k, s) :: rest =>
      match s.build with
      | (.done, s1) =>
          let r := build_loop rest
          (r.1, (k, s1) :: r.2)
      | (.soft _, s1) =>
          let r := build_loop rest
          (r.1, (k, s1.set_invalid) :: r.2)
      | (.other what, s1) => (.error what, (k, s1) :: rest)

/-- Embedding of `SimSystemCollection::build_systems()`. -/
def build_systems (c : SimSystemCollection) : Except String Unit × SimSystemCollection :=
  ((build_loop c.m_sim_systems).1, ⟨(build_loop c.m_sim_systems).2⟩)

/-- The empty registry. -/
def empty : SimSystemCollection := ⟨[]⟩

/-- Registry invariant: keys are pairwise distinct and every entry is stored
under the key of its own concrete type. -/
def Inv (hash_code : Nat → Nat) (c : SimSystemCollection) : Prop :=
  (c.m_sim_systems.map Prod.fst).Nodup ∧
    ∀ e ∈ c.m_sim_systems, e.1 = tid hash_code e.2

end SimSystemCollection

/-- A subsystem whose build step succeeds. -/
def sysA : ISimSystem := ⟨"A", 10, true, true, .done, 0⟩

/-- A subsystem whose build step signals the soft failure. -/
def sysB : ISimSystem := ⟨"B", 20, true, false, .soft "missing collaborator", 0⟩

/-- A subsystem whose build step throws something else. -/
def sysC : ISimSystem := ⟨"C", 30, true, false, .other "bad_alloc", 0⟩

/-- A last subsystem whose build step succeeds. -/
def sysD : ISimSystem := ⟨"D", 40, true, true, .done, 0⟩

/-- A `hash_code` under which all types collide. -/
def constHash : Nat → Nat := fun _ => 7

end cuda

end backend

end uipc

/-! ## `uipc::geometry`: attribute collections and `SimplicialComplex`

Scalars are kept abstract: `S` stands for the floating-point type of the
source, and nothing below depends on a law of its arithmetic.  Geometries are
values: in the source a copy shares its slots with the original and every
mutating accessor clones a shared slot before writing, so a write through one
copy is never seen through another. -/

namespace uipc

namespace builtin

/-- The name `position` of `attribute_name.h`. -/
def position : String := "position"

/-- The name `transform` of `attribute_name.h`. -/
def transform : String := "transform"

end builtin

namespace geometry

/-- The type `Vector3`. -/
structure Vector3 (S : Type) where
  x : S
  y : S
  z : S
deriving DecidableEq, Repr

/-- The type `Vector4`, used for the rows of a `Matrix4x4`. -/
structure Vector4 (S : Type) where
  x : S
  y : S
  z : S
  w : S
deriving DecidableEq, Repr

/-- The type `Matrix4x4`, by rows. -/
structure Matrix4x4 (S : Type) where
  r0 : Vector4 S
  r1 : Vector4 S
  r2 : Vector4 S
  r3 : Vector4 S
deriving DecidableEq, Repr

/-- The constant `Vector3::Zero()`. -/
def Vector3.Zero {S : Type} [Zero S] : Vector3 S := ⟨0, 0, 0⟩

/-- The constant `Matrix4x4::Identity()`, also what `setIdentity()` assigns. -/
def Matrix4x4.Identity {S : Type} [Zero S] [One S] : Matrix4x4 S :=
  ⟨⟨1, 0, 0, 0⟩, ⟨0, 1, 0, 0⟩, ⟨0, 0, 1, 0⟩, ⟨0, 0, 0, 1⟩⟩

/-- The product `Transform{T} * v` of an affine transform with a point: the
linear block of `T` applied to `v`, plus the translation column. -/
def Transform.apply {S : Type} [Add S] [Mul S] (T : Matrix4x4 S) (v : Vector3 S) :
    Vector3 S :=
  ⟨T.r0.x * v.x + T.r0.y * v.y + T.r0.z * v.z + T.r0.w,
   T.r1.x * v.x + T.r1.y * v.y + T.r1.z * v.z + T.r1.w,
   T.r2.x * v.x + T.r2.y * v.y + T.r2.z * v.z + T.r2.w⟩

/-- The column behind an `AttributeSlot<T>`: the value given to new rows and
the rows. -/
structure Attribute (T : Type) where
  m_default : T
  m_values : List T
deriving DecidableEq, Repr

namespace Attribute

variable {T : Type}

/-- Modelled from the spec: `resize(n)` of a column is not part of the
embedded sources; it keeps the first `n` rows and fills up with the default
value. -/
def resize (a : Attribute T) (n : Nat) : Attribute T :=
  { a with m_values := a.m_values.take n ++ List.replicate (n - a.m_values.length) a.m_default }

/-- Modelled from the spec: the row-range policy of `copy_from` is not part of
the embedded sources; `dst[dst_offset + j] = src[src_offset + j]` for
`j < count`, rows outside either column being left alone. -/
def copy_range (dst src : Attribute T) (dst_offset src_offset count : Nat) : Attribute T :=
  { dst with
    m_values := (List.range count).foldl
      (fun vals j =>
        match src.m_values[src_offset + j]? with
        | some x => vals.set (dst_offset + j) x
        | none => vals)
      dst.m_values }

end Attribute

/-- A row value of any of the element types in use. -/
inductive Value (S : Type) where
  | vector3 (v : Vector3 S)
  | matrix4x4 (m : Matrix4x4 S)
  | index (i : Int)
  | scalar (x : S)
deriving DecidableEq, Repr

/-- A type-erased attribute slot (`IAttributeSlot`): a column of one of the
element types in use. -/
inductive AttributeSlot (S : Type) where
  | vector3 (a : Attribute (Vector3 S))
  | matrix4x4 (a : Attribute (Matrix4x4 S))
  | index (a : Attribute Int)
  | scalar (a : Attribute S)
deriving DecidableEq, Repr

namespace AttributeSlot

variable {S : Type}

/-- Number of rows of the slot. -/
def size : AttributeSlot S → Nat
  | .vector3 a => a.m_values.length
  | .matrix4x4 a => a.m_values.length
  | .index a => a.m_values.length
  | .scalar a => a.m_values.length

/-- Row `j` of the slot, if it has one. -/
def row (j : Nat) : AttributeSlot S → Option (Value S)
  | .vector3 a => (a.m_values[j]?).map Value.vector3
  | .matrix4x4 a => (a.m_values[j]?).map Value.matrix4x4
  | .index a => (a.m_values[j]?).map Value.index
  | .scalar a => (a.m_values[j]?).map Value.scalar

/-- Resizing a slot resizes its column. -/
def resize (n : Nat) : AttributeSlot S → AttributeSlot S
  | .vector3 a => .vector3 (a.resize n)
  | .matrix4x4 a => .matrix4x4 (a.resize n)
  | .index a => .index (a.resize n)
  | .scalar a => .scalar (a.resize n)

/-- Row-range copy between two slots; slots of different element types are
left alone. -/
def copy_range (dst_offset src_offset count : Nat) :
    AttributeSlot S → AttributeSlot S → AttributeSlot S
  | .vector3 d, .vector3 s => .vector3 (d.copy_range s dst_offset src_offset count)
  | .matrix4x4 d, .matrix4x4 s => .matrix4x4 (d.copy_range s dst_offset src_offset count)
  | .index d, .index s => .index (d.copy_range s dst_offset src_offset count)
  | .scalar d, .scalar s => .scalar (d.copy_range s dst_offset src_offset count)
  | d, _ => d

end AttributeSlot

/-- The policy `AttributeCopy::range(dst_offset, src_offset, count)`. -/
structure AttributeCopy where
  dst_offset : Nat
  src_offset : Nat
  count : Nat
deriving DecidableEq, Repr

/-- The named constructor `AttributeCopy::range`. -/
def AttributeCopy.range (dst_offset src_offset count : Nat) : AttributeCopy :=
  ⟨dst_offset, src_offset, count⟩

/-- The class `AttributeCollection`: the common row count and the slots by
name. -/
structure AttributeCollection (S : Type) where
  m_size : Nat
  m_attributes : List (String × AttributeSlot S)
deriving DecidableEq, Repr

namespace AttributeCollection

variable {S : Type}

/-- A default-constructed collection: no rows, no slots. -/
def empty : AttributeCollection S := ⟨0, []⟩

/-- Accessor `size()`. -/
def size (c : AttributeCollection S) : Nat := c.m_size

/-- The slot stored under a name, whatever its element type. -/
def find_slot (c : AttributeCollection S) (name : String) : Option (AttributeSlot S) :=
  (c.m_attributes.find? (fun e => e.1 == name)).map Prod.snd

/-- Lookup `find<Vector3>(name)`: absent when the name is missing or bound to
another element type. -/
def find_vector3 (c : AttributeCollection S) (name : String) : Option (Attribute (Vector3 S)) :=
  match c.find_slot name with
  | some (.vector3 a) => some a
  | _ => none

/-- Lookup `find<Matrix4x4>(name)`. -/
def find_matrix4x4 (c : AttributeCollection S) (name : String) :
    Option (Attribute (Matrix4x4 S)) :=
  match c.find_slot name with
  | some (.matrix4x4 a) => some a
  | _ => none

/-- Modelled from the spec: `resize(n)` is not part of the embedded sources;
it applies to every contained slot and sets the row count. -/
def resize (c : AttributeCollection S) (n : Nat) : AttributeCollection S :=
  ⟨n, c.m_attributes.map (fun e => (e.1, e.2.resize n))⟩

/-- Modelled from the spec: `create<Vector3>(name, init)` is not part of the
embedded sources; on a name that is not bound it adds a slot of `size()` rows
holding `init` and returns it, on a name bound to `Vector3` it returns the
slot there, and on a name bound to another element type it fails with a type
mismatch. -/
def create_vector3 (c : AttributeCollection S) (name : String) (init : Vector3 S) :
    Except String (Attribute (Vector3 S) × AttributeCollection S) :=
  match c.find_slot name with
  | none =>
      let a : Attribute (Vector3 S) := ⟨init, List.replicate c.m_size init⟩
      .ok (a, { c with m_attributes := c.m_attributes ++ [(name, .vector3 a)] })
  | some (.vector3 a) => .ok (a, c)
  | some _ => .error ("TypeMismatch: " ++ name)

/-- Writing through the span `view(slot)` of the slot stored under `name`: the
column of that slot is replaced. -/
def assign (c : AttributeCollection S) (name : String) (slot : AttributeSlot S) :
    AttributeCollection S :=
  { c with
    m_attributes := c.m_attributes.map
      (fun e => if e.1 == name then (e.1, slot) else e) }

/-- Is the name selected by the `include_names` / `exclude_names` filters of
`copy_from`?  An empty include list selects every name. -/
def selected (include_names exclude_names : List String) (name : String) : Bool :=
  (include_names.isEmpty || include_names.contains name) && !exclude_names.contains name

/-- Modelled from the spec: `copy_from(other, copy, include_names,
exclude_names)` is not part of the embedded sources; every selected slot that
both collections hold under the same name receives the rows chosen by the
policy from the slot of `other`. -/
def copy_from (c other : AttributeCollection S) (copy : AttributeCopy)
    (include_names exclude_names : List String) : AttributeCollection S :=
  { c with
    m_attributes := c.m_attributes.map (fun e =>
      if selected include_names exclude_names e.1 then
        match other.find_slot e.1 with
        | some src => (e.1, e.2.copy_range copy.dst_offset copy.src_offset copy.count src)
        | none => e
      else e) }

end AttributeCollection

/-- Elementwise `std::copy(first, last, out)` into a span: element `j` of the
source overwrites element `j` of the destination. -/
def std_copy {T : Type} : List T → List T → List T
  | [], dst => dst
  | _ :: _, [] => []
  | x :: xs, _ :: ds => x :: std_copy xs ds

/-- The class `AbstractSimplicialComplex`: the index topology. -/
structure AbstractSimplicialComplex where
  m_vertices : List Nat
  m_edges : List (Nat × Nat)
  m_triangles : List (Nat × Nat × Nat)
  m_tetrahedra : List (Nat × Nat × Nat × Nat)
deriving DecidableEq, Repr

/-- The class `SimplicialComplex`, with the members `m_intances` and `m_meta`
it inherits from `Geometry`. -/
structure SimplicialComplex (S : Type) where
  m_intances : AttributeCollection S
  m_meta : AttributeCollection S
  m_asc : AbstractSimplicialComplex
  m_vertex_attributes : AttributeCollection S
  m_edge_attributes : AttributeCollection S
  m_triangle_attributes : AttributeCollection S
  m_tetrahedron_attributes : AttributeCollection S
deriving DecidableEq, Repr

namespace SimplicialComplex

variable {S : Type}

/-- The message of the assertion in the constructor. -/
def size_mismatch (vertices positions : Nat) : String :=
  "Number of vertices in the simplicial complex (" ++ toString vertices
    ++ ") does not match the number of positions (" ++ toString positions ++ ")."

/-- Modelled from the spec: the constructor `Geometry::Geometry()` is not part
of the embedded sources; the instance collection has one row and carries the
`transform` slot holding the identity, the meta collection has one row. -/
def base_instances [Zero S] [One S] : AttributeCollection S :=
  ⟨1, [(builtin.transform, .matrix4x4 ⟨Matrix4x4.Identity, [Matrix4x4.Identity]⟩)]⟩

/-- Modelled from the spec: the meta collection set up by `Geometry::Geometry()`
(see `base_instances`). -/
def base_meta : AttributeCollection S := ⟨1, []⟩

/-- Embedding of the constructor
`SimplicialComplex(const AbstractSimplicialComplex& asc, span<const Vector3> positions)`.
A failed `UIPC_ASSERT` is a fatal failure, rendered as `Except.error`. -/
def construct [Zero S] [One S] (asc : AbstractSimplicialComplex)
    (positions : List (Vector3 S)) : Except String (SimplicialComplex S) :=
  if positions.length = asc.m_vertices.length then
    let m_vertex_attributes := (AttributeCollection.empty : AttributeCollection S).resize
      asc.m_vertices.length
    let m_edge_attributes := (AttributeCollection.empty : AttributeCollection S).resize
      asc.m_edges.length
    let m_triangle_attributes := (AttributeCollection.empty : AttributeCollection S).resize
      asc.m_triangles.length
    let m_tetrahedron_attributes := (AttributeCollection.empty : AttributeCollection S).resize
      asc.m_tetrahedra.length
    match m_vertex_attributes.create_vector3 builtin.position Vector3.Zero with
    | .error e => .error e
    | .ok (pos, m_vertex_attributes) =>
        let view_ := std_copy positions pos.m_values
        .ok { m_intances := base_instances
              m_meta := base_meta
              m_asc := asc
              m_vertex_attributes :=
                m_vertex_attributes.assign builtin.position
                  (.vector3 { pos with m_values := view_ })
              m_edge_attributes := m_edge_attributes
              m_triangle_attributes := m_triangle_attributes
              m_tetrahedron_attributes := m_tetrahedron_attributes }
  else
    .error (size_mismatch asc.m_vertices.length positions.length)

/-- Embedding of `SimplicialComplex::positions()`: the slot
`find<Vector3>(builtin::position)` of the vertex attributes, absent where the
source dereferences a null result. -/
def positions (sc : SimplicialComplex S) : Option (Attribute (Vector3 S)) :=
  sc.m_vertex_attributes.find_vector3 builtin.position

/-- Modelled from the spec: `Geometry::transforms()` is not part of the
embedded sources; it is the `transform` slot of 4x4 matrices of the instance
collection, looked up as `positions()` looks up `position`. -/
def transforms (sc : SimplicialComplex S) : Option (Attribute (Matrix4x4 S)) :=
  sc.m_intances.find_matrix4x4 builtin.transform

/-- Accessor `instances()`. -/
def instances (sc : SimplicialComplex S) : AttributeCollection S := sc.m_intances

/-- Embedding of `SimplicialComplex::dim() const`; the result type `IndexT` is
a signed integer. -/
def dim (sc : SimplicialComplex S) : Int :=
  if sc.m_asc.m_tetrahedra.length > 0 then 3
  else if sc.m_asc.m_triangles.length > 0 then 2
  else if sc.m_asc.m_edges.length > 0 then 1
  else 0

end SimplicialComplex

/-- All results of a list of steps, or nothing if one of them has none. -/
def collect {T : Type} : List (Option T) → Option (List T)
  | [] => some []
  | none :: _ => none
  | some x :: rest => (collect rest).map (fun xs => x :: xs)

/-- The body of the loop of `apply_transform` for the copy `R` at index `i`. -/
def apply_transform_at {S : Type} [Zero S] [One S] [Add S] [Mul S]
    (complex : SimplicialComplex S) (i : Nat) : Option (SimplicialComplex S) :=
  let R := complex
  let R := { R with m_intances := R.m_intances.resize 1 }
  let R := { R with
             m_intances := R.m_intances.copy_from complex.m_intances
               (AttributeCopy.range 0 i 1) [] [] }
  match R.transforms, R.positions with
  | some T, some Vs =>
      match T.m_values[0]? with
      | some T0 =>
          let Vs1 := Vs.m_values.map (fun v => Transform.apply T0 v)
          let R := { R with
                     m_vertex_attributes := R.m_vertex_attributes.assign builtin.position
                       (.vector3 { Vs with m_values := Vs1 }) }
          let R := { R with
                     m_intances := R.m_intances.assign builtin.transform
                       (.matrix4x4 { T with m_values := T.m_values.set 0 Matrix4x4.Identity }) }
          some R
      | none => none
  | _, _ => none

/-- Embedding of `apply_transform(const SimplicialComplex& complex)`: one copy
of `complex` per instance, each run through the loop body; nothing where the
source dereferences a missing slot or row. -/
def apply_transform {S : Type} [Zero S] [One S] [Add S] [Mul S]
    (complex : SimplicialComplex S) : Option (List (SimplicialComplex S)) :=
  collect ((List.range complex.instances.size).map (apply_transform_at complex))

end geometry

end uipc

namespace uipc

namespace geometry

/-- The topology of a single tetrahedron. -/
def tetTopo : AbstractSimplicialComplex := ⟨[0, 1, 2, 3], [], [], [(0, 1, 2, 3)]⟩

/-- Four positions over the integers, corners of the unit tetrahedron. -/
def tetPositions : List (Vector3 Int) := [⟨0, 0, 0⟩, ⟨1, 0, 0⟩, ⟨0, 1, 0⟩, ⟨0, 0, 1⟩]

end geometry

end uipc

/-! ## Shared attribute storage (copy-on-write)

The slot classes and `Object::Geometries::create` are outside the embedded
sources; this section models them from the data model of the spec: storage
with an owner count, slots as handles on storage. -/

namespace uipc

namespace geometry

namespace sharing

/-- Modelled from the spec: the storage behind an Attribute Slot, a sequence of
values together with the number of its current owners. -/
structure Storage (T : Type) where
  values : List T
  owners : Nat
deriving DecidableEq, Repr

/-- Modelled from the spec: all storage in existence; a slot is the index of
its storage. -/
abbrev Heap (T : Type) := List (Storage T)

namespace Heap

variable {T : Type}

/-- Modelled from the spec: `is_shared()` reports whether the underlying
storage currently has more than one owner. -/
def is_shared (h : Heap T) (slot : Nat) : Bool :=
  match h[slot]? with
  | some b => decide (1 < b.owners)
  | none => false

/-- Modelled from the spec: a read-only view hands out the values and never
copies; the heap is returned as it was. -/
def view (h : Heap T) (slot : Nat) : List T × Heap T :=
  match h[slot]? with
  | some b => (b.values, h)
  | none => ([], h)

/-- Modelled from the spec: a slot copied along with its geometry references
the same storage, which gains an owner. -/
def share (h : Heap T) (slot : Nat) : Heap T :=
  match h[slot]? with
  | some b => h.set slot { b with owners := b.owners + 1 }
  | none => h

/-- Modelled from the spec: a mutating access to a slot whose storage has
more than one owner clones first: the slot leaves the shared storage and
becomes the only owner of a fresh copy.  Returns the heap and the slot's
storage afterwards. -/
def view_mut (h : Heap T) (slot : Nat) : Heap T × Nat :=
  match h[slot]? with
  | some b =>
      if 1 < b.owners then
        (h.set slot { b with owners := b.owners - 1 } ++ [⟨b.values, 1⟩], h.length)
      else (h, slot)
  | none => (h, slot)

end Heap

/-- Modelled from the spec: a geometry as seen by the sharing discipline, its
slots by name, each a handle on storage. -/
structure GeometryHandle where
  slots : List (String × Nat)
deriving DecidableEq, Repr

/-- The `position` slot of a geometry handle. -/
def GeometryHandle.positions (g : GeometryHandle) : Option Nat :=
  (g.slots.find? (fun e => e.1 == builtin.position)).map Prod.snd

/-- Modelled from the spec: copy construction of a geometry shares all
underlying slots. -/
def copy_geometry {T : Type} (h : Heap T) (g : GeometryHandle) : Heap T × GeometryHandle :=
  (g.slots.foldl (fun h e => Heap.share h e.2) h, g)

/-- What `geometries().create(mesh)` hands back: the geometry and the rest
geometry, and the heap afterwards. -/
structure Created (T : Type) where
  heap : Heap T
  geo : GeometryHandle
  rest_geo : GeometryHandle

/-- Modelled from the spec: `Object::Geometries::create(mesh)` is not part of
the embedded sources (only its use in the test `obj` is); the geometry and the
rest geometry are two copies of the one mesh. -/
def create {T : Type} (h : Heap T) (mesh : GeometryHandle) : Created T :=
  let r1 := copy_geometry h mesh
  let r2 := copy_geometry r1.1 mesh
  ⟨r2.1, r1.2, r2.2⟩

/-- A read-only access to the positions of one of the two geometries. -/
inductive Access where
  | geo_view
  | rest_view
deriving DecidableEq, Repr

/-- One read-only access after `create`: the view is taken and dropped. -/
def Created.read {T : Type} (r : Created T) : Access → Created T
  | .geo_view =>
      match r.geo.positions with
      | some s => { r with heap := (Heap.view r.heap s).2 }
      | none => r
  | .rest_view =>
      match r.rest_geo.positions with
      | some s => { r with heap := (Heap.view r.heap s).2 }
      | none => r

/-- A sequence of read-only accesses. -/
def Created.reads {T : Type} (r : Created T) : List Access → Created T
  | [] => r
  | a :: rest => (r.read a).reads rest

/-- The eight corners of the unit cube. -/
def cubePositions : List (Vector3 Int) :=
  [⟨0, 0, 0⟩, ⟨1, 0, 0⟩, ⟨0, 1, 0⟩, ⟨1, 1, 0⟩, ⟨0, 0, 1⟩, ⟨1, 0, 1⟩, ⟨0, 1, 1⟩, ⟨1, 1, 1⟩]

/-- A heap holding the positions of a cube mesh, owned by the mesh alone. -/
def cubeHeap : Heap (Vector3 Int) := [⟨cubePositions, 1⟩]

/-- The cube mesh: its `position` slot is storage `0`. -/
def cubeMesh : GeometryHandle := ⟨[(builtin.position, 0)]⟩

end sharing

/-- A complex with two instances over `tetTopo`: a translation by `(1, 0, 0)`
and a scaling by `2`, and a further instance attribute `id`. -/
def twoInstances : SimplicialComplex Int where
  m_intances :=
    ⟨2, [(builtin.transform, .matrix4x4 ⟨Matrix4x4.Identity,
            [⟨⟨1, 0, 0, 1⟩, ⟨0, 1, 0, 0⟩, ⟨0, 0, 1, 0⟩, ⟨0, 0, 0, 1⟩⟩,
             ⟨⟨2, 0, 0, 0⟩, ⟨0, 2, 0, 0⟩, ⟨0, 0, 2, 0⟩, ⟨0, 0, 0, 1⟩⟩]⟩),
         ("id", .index ⟨0, [7, 9]⟩)]⟩
  m_meta := ⟨1, []⟩
  m_asc := tetTopo
  m_vertex_attributes := ⟨4, [(builtin.position, .vector3 ⟨Vector3.Zero, tetPositions⟩)]⟩
  m_edge_attributes := ⟨0, []⟩
  m_triangle_attributes := ⟨0, []⟩
  m_tetrahedron_attributes := ⟨1, []⟩

end geometry

end uipc

/-! # Properties -/

namespace uipc

namespace core

namespace World

variable {E : Type}

theorem log_nil (w : World E) : w.log [] = w := by
  cases w; simp [log]

theorem log_log (w : World E) (xs ys : List Event) :
    (w.log xs).log ys = w.log (xs ++ ys) := by
  cases w; simp [log]

/-- On an invalid world every call is skipped: it hands back the failure
value and changes nothing but the log of sanity-checker calls. -/
theorem call_of_invalid (eng : Engine E) (w : World E) (c : Call)
    (h : w.m_valid = false) :
    w.call eng c = (c.skipped, w.log c.checkerEvents) := by
  cases w with
  | mk e sc v cl =>
    simp only at h
    subst h
    cases c with
    | init s =>
      simp only [call, init, sanity_check, log, Call.skipped, Call.checkerEvents]
      by_cases hs : s.sanity_check_enable = true
      · cases hr : s.check_result <;> simp [hs]
      · simp [hs]
    | recover n =>
      cases sc <;> simp [call, recover, log, Call.skipped, Call.checkerEvents]
    | _ => simp [call, advance, sync, retrieve, backward, dump, frame, log,
             Call.skipped, Call.checkerEvents]

theorem after_nil (eng : Engine E) (w : World E) : w.after eng [] = w := rfl

theorem after_cons (eng : Engine E) (w : World E) (c : Call) (cs : List Call) :
    w.after eng (c :: cs) = (w.call eng c).2.after eng cs := rfl

theorem after_append (eng : Engine E) (w : World E) (xs ys : List Call) :
    w.after eng (xs ++ ys) = (w.after eng xs).after eng ys := by
  induction xs generalizing w with
  | nil => rfl
  | cons c cs ih => simp [after_cons, ih]

/-- Invalidity is preserved by any sequence of calls, and so are the engine
state, the bound scene and the engine part of the call log. -/
theorem after_of_invalid (eng : Engine E) (w : World E) (cs : List Call)
    (h : w.m_valid = false) :
    (w.after eng cs).m_valid = false ∧
      (w.after eng cs).m_engine = w.m_engine ∧
      (w.after eng cs).m_scene = w.m_scene ∧
      (w.after eng cs).calls.filter Event.onEngine = w.calls.filter Event.onEngine := by
  induction cs generalizing w with
  | nil => simp [after_nil, h]
  | cons c cs ih =>
    rw [after_cons, call_of_invalid eng w c h]
    have hv : (w.log c.checkerEvents).m_valid = false := by simpa [log] using h
    obtain ⟨h1, h2, h3, h4⟩ := ih (w.log c.checkerEvents) hv
    refine ⟨h1, by simpa [log] using h2, by simpa [log] using h3, ?_⟩
    rw [h4]
    cases c with
    | init s =>
      by_cases hs : s.sanity_check_enable = true <;>
        simp [log, Call.checkerEvents, hs, Event.onEngine]
    | _ => simp [log, Call.checkerEvents]

/-- C1 (validity monotonicity).  Let a sequence of calls `pre` leave the world
invalid, and let `w1` be the world after any further calls `mid`.  Then `w1` is
invalid, any next call `c` (init included) leaves it invalid, hands back the
failure value and does not touch the engine (same engine state, no engine call
logged since `pre`); advance, sync, retrieve and backward change nothing at
all, dump and recover return `false` changing nothing, and `frame()` returns
`0` without asking the engine. -/
theorem validity_monotone (eng : Engine E) (w : World E) (pre mid : List Call)
    (c : Call) (w1 : World E) (hw1 : w1 = w.after eng (pre ++ mid))
    (h : (w.after eng pre).m_valid = false) :
    w1.m_valid = false ∧
      (w1.call eng c).2.m_valid = false ∧
      (w1.call eng c).1 = c.skipped ∧
      (w1.call eng c).2.m_engine = (w.after eng pre).m_engine ∧
      (w1.call eng c).2.calls.filter Event.onEngine
        = (w.after eng pre).calls.filter Event.onEngine ∧
      w1.advance eng = w1 ∧ w1.sync eng = w1 ∧ w1.retrieve eng = w1 ∧
      w1.backward eng = w1 ∧ w1.dump eng = (false, w1) ∧
      (∀ n, w1.recover eng n = (false, w1)) ∧ w1.frame eng = (0, w1) := by
  subst hw1
  rw [after_append]
  obtain ⟨h1, h2, _, h4⟩ := after_of_invalid eng (w.after eng pre) mid h
  generalize (w.after eng pre).after eng mid = w1 at h1 h2 h4
  obtain ⟨k1, k2, _, k4⟩ := after_of_invalid eng w1 [c] h1
  rw [after_cons, after_nil] at k1 k2 k4
  refine ⟨h1, k1, ?_, k2.trans h2, k4.trans h4, ?_, ?_, ?_, ?_, ?_, ?_, ?_⟩
  · rw [call_of_invalid eng w1 c h1]
  · simp [advance, h1]
  · simp [sync, h1]
  · simp [retrieve, h1]
  · simp [backward, h1]
  · simp [dump, h1]
  · intro n
    cases hsc : w1.m_scene <;> simp [recover, h1, hsc]
  · simp [frame, h1]

/-- The hypothesis of `validity_monotone` is met by `counterEngine` after
`init, advance, advance`; the theorem then applies to a later `recover`. -/
theorem validity_monotone_witness :
    (freshWorld.after counterEngine [.init sceneOk, .advance, .advance]).m_valid = false ∧
      ((freshWorld.after counterEngine
          ([.init sceneOk, .advance, .advance] ++ [.backward, .init sceneOk])).call
            counterEngine (.recover 1)).1 = .bool false :=
  ⟨by decide,
    (validity_monotone counterEngine freshWorld [.init sceneOk, .advance, .advance]
      [.backward, .init sceneOk] (.recover 1) _ rfl (by decide)).2.2.1⟩

/-- C2.  On a valid world with a scene bound, each of advance, sync, retrieve,
backward, dump and recover calls the matching engine operation once, then
reads the engine status once, and the world is valid afterwards exactly when
that status reports no error. -/
theorem lifecycle_delegates (eng : Engine E) (w : World E) (n : Nat)
    (hv : w.m_valid = true) (hs : w.m_scene.isSome = true) :
    ((w.advance eng).calls = w.calls ++ [.engine_advance, .engine_status] ∧
        (w.advance eng).m_engine = eng.advance w.m_engine ∧
        ((w.advance eng).m_valid = true ↔
          eng.has_error (eng.advance w.m_engine) = false)) ∧
      ((w.sync eng).calls = w.calls ++ [.engine_sync, .engine_status] ∧
        (w.sync eng).m_engine = eng.sync w.m_engine ∧
        ((w.sync eng).m_valid = true ↔
          eng.has_error (eng.sync w.m_engine) = false)) ∧
      ((w.retrieve eng).calls = w.calls ++ [.engine_retrieve, .engine_status] ∧
        (w.retrieve eng).m_engine = eng.retrieve w.m_engine ∧
        ((w.retrieve eng).m_valid = true ↔
          eng.has_error (eng.retrieve w.m_engine) = false)) ∧
      ((w.backward eng).calls = w.calls ++ [.engine_backward, .engine_status] ∧
        (w.backward eng).m_engine = eng.backward w.m_engine ∧
        ((w.backward eng).m_valid = true ↔
          eng.has_error (eng.backward w.m_engine) = false)) ∧
      ((w.dump eng).2.calls = w.calls ++ [.engine_dump, .engine_status] ∧
        (w.dump eng).2.m_engine = (eng.dump w.m_engine).2 ∧
        ((w.dump eng).2.m_valid = true ↔
          eng.has_error (eng.dump w.m_engine).2 = false)) ∧
      ((w.recover eng n).2.calls = w.calls ++ [.engine_recover n, .engine_status] ∧
        (w.recover eng n).2.m_engine = (eng.recover n w.m_engine).2 ∧
        ((w.recover eng n).2.m_valid = true ↔
          eng.has_error (eng.recover n w.m_engine).2 = false)) := by
  cases w with
  | mk e sc v cl =>
    simp only at hv hs
    subst hv
    cases sc with
    | none => simp at hs
    | some s0 =>
      refine ⟨?_, ?_, ?_, ?_, ?_, ?_⟩
      · cases hb : eng.has_error (eng.advance e) <;> simp [advance, log, hb]
      · cases hb : eng.has_error (eng.sync e) <;> simp [sync, log, hb]
      · cases hb : eng.has_error (eng.retrieve e) <;> simp [retrieve, log, hb]
      · cases hb : eng.has_error (eng.backward e) <;> simp [backward, log, hb]
      · cases hb : eng.has_error (eng.dump e).2 <;> simp [dump, log, hb]
      · cases hb : eng.has_error (eng.recover n e).2 <;> simp [recover, log, hb]

/-- The hypotheses of `lifecycle_delegates` hold after a successful init on
`counterEngine`; the advance that follows is logged as one engine call and one
status read. -/
theorem lifecycle_delegates_witness :
    ((freshWorld.init counterEngine sceneOk).advance counterEngine).calls
      = (freshWorld.init counterEngine sceneOk).calls
          ++ [.engine_advance, .engine_status] :=
  (lifecycle_delegates counterEngine (freshWorld.init counterEngine sceneOk) 0
    (by decide) (by decide)).1.1

/-- C3.  `World::init` on a valid world with a scene whose sanity check is
enabled.  If the check returns `Error`, the world becomes invalid and nothing
else happens: only the two sanity-checker calls are logged, the bound scene
and the engine are as before.  If it returns `Success` or `Warning`, the scene
is bound, the scene's init, the engine's init and one status read follow in
that order, and the world is valid afterwards exactly when the status reports
no error. -/
theorem init_sanity_gate (eng : Engine E) (w : World E) (s : Scene)
    (hv : w.m_valid = true) (hen : s.sanity_check_enable = true) :
    (s.check_result = .Error →
        w.init eng s =
          { w with m_valid := false,
                   calls := w.calls ++ [.sanity_checkers_init s.id,
                                        .sanity_checkers_check s.id] }) ∧
      (s.check_result ≠ .Error →
        (w.init eng s).m_scene = some s ∧
        (w.init eng s).calls = w.calls ++
          [.sanity_checkers_init s.id, .sanity_checkers_check s.id,
           .scene_init s.id, .engine_init, .engine_status] ∧
        (w.init eng s).m_engine = eng.init s w.m_engine ∧
        ((w.init eng s).m_valid = true ↔
          eng.has_error (eng.init s w.m_engine) = false)) := by
  cases w with
  | mk e sc v cl =>
    simp only at hv
    subst hv
    constructor
    · intro hr
      simp [init, sanity_check, log, hen, hr]
    · intro hr
      cases hc : s.check_result with
      | Error => exact absurd hc hr
      | Success =>
        cases hb : eng.has_error (eng.init s e) <;>
          simp [init, sanity_check, log, hen, hc, hb]
      | Warning =>
        cases hb : eng.has_error (eng.init s e) <;>
          simp [init, sanity_check, log, hen, hc, hb]

/-- The hypotheses of `init_sanity_gate` hold for a fresh world and a scene
whose check fails: the world ends invalid with no scene bound. -/
theorem init_sanity_gate_witness :
    freshWorld.init counterEngine sceneBad =
      { freshWorld with m_valid := false,
                        calls := freshWorld.calls ++
                          [.sanity_checkers_init sceneBad.id,
                           .sanity_checkers_check sceneBad.id] } :=
  (init_sanity_gate counterEngine freshWorld sceneBad (by decide) (by decide)).1
    (by decide)

end World

end core

end uipc

namespace uipc

namespace backend

namespace cuda

namespace SimSystemMap

theorem find_eq_none_iff (k : Nat) (m : SimSystemMap) :
    find k m = none ↔ k ∉ m.map Prod.fst := by
  induction m with
  | nil => simp [find]
  | cons e rest ih =>
    obtain ⟨k1, v⟩ := e
    by_cases hk : k1 = k
    · simp [find, hk]
    · have hk2 : ¬ k = k1 := fun h => hk h.symm
      simp [find, hk, hk2, ih]

theorem find_isSome_of_mem (k : Nat) (m : SimSystemMap) (h : k ∈ m.map Prod.fst) :
    ∃ v, find k m = some v := by
  cases hf : find k m with
  | none => exact absurd h ((find_eq_none_iff k m).1 hf)
  | some v => exact ⟨v, rfl⟩

/-- Inserting under a key that is not stored adds exactly that entry. -/
theorem insert_perm (k : Nat) (v : ISimSystem) (m : SimSystemMap)
    (h : k ∉ m.map Prod.fst) : List.Perm (insert k v m) ((k, v) :: m) := by
  induction m with
  | nil => simp [insert]
  | cons e rest ih =>
    obtain ⟨k1, v1⟩ := e
    simp only [List.map_cons, List.mem_cons, not_or] at h
    by_cases hlt : k < k1
    · simp [insert, hlt]
    · simp only [insert, hlt, h.1, if_false]
      exact ((ih h.2).cons (k1, v1)).trans (List.Perm.swap _ _ _)

end SimSystemMap

namespace SimSystemCollection

theorem inv_empty (hash_code : Nat → Nat) : Inv hash_code empty := by
  simp [Inv, empty]

theorem create_of_mem (hash_code : Nat → Nat) (c : SimSystemCollection) (s : ISimSystem)
    (h : tid hash_code s ∈ c.m_sim_systems.map Prod.fst) :
    ∃ msg, create hash_code c s = (.error msg, c) := by
  obtain ⟨v, hv⟩ := SimSystemMap.find_isSome_of_mem _ _ h
  exact ⟨already_exists v.name s.name, by simp [create, hv]⟩

theorem create_of_not_mem (hash_code : Nat → Nat) (c : SimSystemCollection) (s : ISimSystem)
    (h : tid hash_code s ∉ c.m_sim_systems.map Prod.fst) :
    create hash_code c s
      = (.ok (), ⟨c.m_sim_systems.insert (tid hash_code s) s⟩) := by
  have hv := (SimSystemMap.find_eq_none_iff _ _).2 h
  simp [create, hv]

theorem inv_create (hash_code : Nat → Nat) (c : SimSystemCollection) (s : ISimSystem)
    (h : Inv hash_code c) : Inv hash_code (create hash_code c s).2 := by
  by_cases hm : tid hash_code s ∈ c.m_sim_systems.map Prod.fst
  · obtain ⟨msg, hmsg⟩ := create_of_mem hash_code c s hm
    rw [hmsg]; exact h
  · rw [create_of_not_mem hash_code c s hm]
    have hp := SimSystemMap.insert_perm (tid hash_code s) s c.m_sim_systems hm
    constructor
    · have hp2 := hp.map Prod.fst
      refine (hp2.nodup_iff).2 ?_
      simp only [List.map_cons, List.nodup_cons]
      exact ⟨hm, h.1⟩
    · intro e he
      have he2 := hp.mem_iff.1 he
      rcases List.mem_cons.1 he2 with rfl | he3
      · rfl
      · exact h.2 e he3

theorem inv_create_all (hash_code : Nat → Nat) (systems : List ISimSystem)
    (c : SimSystemCollection) (h : Inv hash_code c) :
    Inv hash_code (create_all hash_code c systems).2 := by
  induction systems generalizing c with
  | nil => exact h
  | cons s rest ih =>
    have hc := inv_create hash_code c s h
    cases hr : create hash_code c s with
    | mk r c1 =>
      rw [hr] at hc
      cases r with
      | ok u => simp only [create_all, hr]; exact ih c1 hc
      | error msg => simp only [create_all, hr]; exact hc

/-- Under the invariant no two entries have the same concrete type. -/
theorem types_nodup_of_inv (hash_code : Nat → Nat) (c : SimSystemCollection)
    (h : Inv hash_code c) :
    (c.m_sim_systems.map (fun e => e.2.type_info)).Nodup := by
  have hk : c.m_sim_systems.map Prod.fst
      = (c.m_sim_systems.map (fun e => e.2.type_info)).map
          (fun t => hash_code t % 2 ^ 64) := by
    rw [List.map_map]
    apply List.map_congr_left
    intro e he
    simpa [tid] using h.2 e he
  have h1 := h.1
  rw [hk] at h1
  exact List.Nodup.of_map _ h1

theorem key_mem_of_type_mem (hash_code : Nat → Nat) (c : SimSystemCollection)
    (s : ISimSystem) (h : Inv hash_code c)
    (ht : s.type_info ∈ c.m_sim_systems.map (fun e => e.2.type_info)) :
    tid hash_code s ∈ c.m_sim_systems.map Prod.fst := by
  obtain ⟨e, he, hte⟩ := List.mem_map.1 ht
  refine List.mem_map.2 ⟨e, he, ?_⟩
  rw [h.2 e he]
  simp only [tid] at hte ⊢
  rw [hte]

theorem create_all_of_fresh (hash_code : Nat → Nat) (systems : List ISimSystem)
    (c : SimSystemCollection)
    (hnd : (systems.map (tid hash_code)).Nodup)
    (hfresh : ∀ s ∈ systems, tid hash_code s ∉ c.m_sim_systems.map Prod.fst) :
    (create_all hash_code c systems).1 = .ok () ∧
      List.Perm (create_all hash_code c systems).2.m_sim_systems
        (systems.map (fun s => (tid hash_code s, s)) ++ c.m_sim_systems) := by
  induction systems generalizing c with
  | nil => simp [create_all]
  | cons s rest ih =>
    have hs := hfresh s (List.mem_cons_self _ _)
    simp only [List.map_cons, List.nodup_cons] at hnd
    have hp := SimSystemMap.insert_perm (tid hash_code s) s c.m_sim_systems hs
    simp only [create_all, create_of_not_mem hash_code c s hs]
    have hfresh2 : ∀ t ∈ rest, tid hash_code t ∉
        (SimSystemCollection.mk (c.m_sim_systems.insert (tid hash_code s) s)).m_sim_systems.map
          Prod.fst := by
      intro t ht hmem
      have hmem2 := ((hp.map Prod.fst).mem_iff).1 hmem
      simp only [List.map_cons, List.mem_cons] at hmem2
      rcases hmem2 with heq | hin
      · exact hnd.1 (List.mem_map.2 ⟨t, ht, heq⟩)
      · exact hfresh t (List.mem_cons_of_mem _ ht) hin
    obtain ⟨h1, h2⟩ := ih _ hnd.2 hfresh2
    refine ⟨h1, h2.trans ?_⟩
    simp only [List.map_cons, List.cons_append]
    exact ((List.Perm.append_left _ hp).trans List.perm_middle)

theorem cleanup_loop_eq_filter (m : SimSystemMap) :
    cleanup_loop m = m.filter (fun e => e.2.m_valid) := by
  induction m with
  | nil => rfl
  | cons e rest ih =>
    obtain ⟨k, v⟩ := e
    cases hv : v.m_valid <;> simp [cleanup_loop, ISimSystem.is_valid, hv, ih]

theorem to_json_eq_map (c : SimSystemCollection) :
    to_json c = c.m_sim_systems.map (fun e => e.2.to_json) := by
  have key : ∀ (m : SimSystemMap) (acc : List (String × Bool)),
      m.foldl (fun j kv => j ++ [kv.2.to_json]) acc
        = acc ++ m.map (fun e => e.2.to_json) := by
    intro m
    induction m with
    | nil => simp
    | cons e rest ih => intro acc; simp [ih]
  simpa [to_json] using key c.m_sim_systems []

/-- The loop of `build_systems` up to the first subsystem whose build step
throws something that is not the soft failure. -/
theorem build_loop_append (pre rest : SimSystemMap)
    (hpre : ∀ e ∈ pre, e.2.do_build.isOther = false) :
    build_loop (pre ++ rest) =
      ((build_loop rest).1,
        pre.map (fun e =>
            (e.1, { e.2 with
                    builds := e.2.builds + 1
                    m_valid := e.2.m_valid && e.2.do_build.isDone }))
          ++ (build_loop rest).2) := by
  induction pre with
  | nil => simp
  | cons e pre ih =>
    obtain ⟨k, v⟩ := e
    have ih2 := ih (fun e he => hpre e (List.mem_cons_of_mem _ he))
    have hv := hpre (k, v) (List.mem_cons_self _ _)
    cases hb : v.do_build with
    | done =>
      simp [build_loop, ISimSystem.build, hb, ih2, BuildSignal.isDone]
    | soft what =>
      simp [build_loop, ISimSystem.build, ISimSystem.set_invalid, hb, ih2,
        BuildSignal.isDone]
    | other what => simp [hb, BuildSignal.isOther] at hv

theorem find_eq_some_iff_mem (m : SimSystemMap) (hnd : (m.map Prod.fst).Nodup)
    (k : Nat) (v : ISimSystem) :
    SimSystemMap.find k m = some v ↔ (k, v) ∈ m := by
  induction m with
  | nil => simp [SimSystemMap.find]
  | cons e rest ih =>
    obtain ⟨k1, v1⟩ := e
    simp only [List.map_cons, List.nodup_cons] at hnd
    by_cases hk : k1 = k
    · subst hk
      have hnot : (k1, v) ∉ rest := fun hin =>
        hnd.1 (List.mem_map.2 ⟨(k1, v), hin, rfl⟩)
      simp only [SimSystemMap.find, if_true, Option.some.injEq, List.mem_cons,
        Prod.mk.injEq, true_and]
      constructor
      · intro h; exact Or.inl h.symm
      · rintro (h | h)
        · exact h.symm
        · exact absurd h hnot
    · have hk2 : ¬ k = k1 := fun h => hk h.symm
      simp [SimSystemMap.find, hk, hk2, ih hnd.2]

/-- What `create` guarantees whatever `hash_code` is.  In every registry built
from the empty one by `create` calls, no two entries share a key or a concrete
type.  Registering a
subsystem whose key `typeid(s).hash_code()` is already stored, in particular
one whose concrete type is already registered, is fatal and leaves the
registry as it was.  Registering subsystems whose keys are pairwise distinct
succeeds every time and yields exactly these subsystems, one entry each. -/
theorem create_unique_per_key (hash_code : Nat → Nat) (systems : List ISimSystem)
    (s : ISimSystem) :
    ((create_all hash_code empty systems).2.m_sim_systems.map Prod.fst).Nodup ∧
      ((create_all hash_code empty systems).2.m_sim_systems.map
        (fun e => e.2.type_info)).Nodup ∧
      (tid hash_code s ∈ (create_all hash_code empty systems).2.m_sim_systems.map Prod.fst →
        ∃ msg, create hash_code (create_all hash_code empty systems).2 s
          = (.error msg, (create_all hash_code empty systems).2)) ∧
      (s.type_info ∈ (create_all hash_code empty systems).2.m_sim_systems.map
          (fun e => e.2.type_info) →
        ∃ msg, create hash_code (create_all hash_code empty systems).2 s
          = (.error msg, (create_all hash_code empty systems).2)) ∧
      ((systems.map (tid hash_code)).Nodup →
        (create_all hash_code empty systems).1 = .ok () ∧
        (create_all hash_code empty systems).2.m_sim_systems.length = systems.length ∧
        List.Perm ((create_all hash_code empty systems).2.m_sim_systems.map Prod.snd)
          systems) := by
  have hinv := inv_create_all hash_code systems empty (inv_empty hash_code)
  refine ⟨hinv.1, types_nodup_of_inv hash_code _ hinv, ?_, ?_, ?_⟩
  · exact create_of_mem hash_code _ s
  · intro ht
    exact create_of_mem hash_code _ s (key_mem_of_type_mem hash_code _ s hinv ht)
  · intro hnd
    obtain ⟨h1, h2⟩ := create_all_of_fresh hash_code systems empty hnd
      (by simp [empty])
    refine ⟨h1, ?_, ?_⟩
    · simpa [empty] using h2.length_eq
    · have h3 := h2.map Prod.snd
      simpa [empty, Function.comp_def] using h3

/-- With the identity as `hash_code`, four subsystems of distinct types are
registered without failure, and registering one of them again is fatal. -/
theorem create_unique_per_key_witness :
    ([sysD, sysB, sysA, sysC].map (tid id)).Nodup ∧
      (create_all id empty [sysD, sysB, sysA, sysC]).1 = .ok () ∧
      (create_all id empty [sysD, sysB, sysA, sysC]).2.m_sim_systems.length = 4 ∧
      sysA.type_info ∈ (create_all id empty [sysD, sysB, sysA, sysC]).2.m_sim_systems.map
        (fun e => e.2.type_info) ∧
      ∃ msg, create id (create_all id empty [sysD, sysB, sysA, sysC]).2 sysA
        = (.error msg, (create_all id empty [sysD, sysB, sysA, sysC]).2) :=
  have h := create_unique_per_key id [sysD, sysB, sysA, sysC] sysA
  ⟨by decide, (h.2.2.2.2 (by decide)).1, (h.2.2.2.2 (by decide)).2.1, by decide,
    h.2.2.2.1 (by decide)⟩

/-- C4, the code at the failing input: two subsystems of distinct concrete
types whose `hash_code` values are equal.  `sysA` is registered without
failure; the type of `sysB` is then not registered, yet `create` finds the
entry of `sysA` under the key of `sysB`, fails with the message that `A`
already exists, and the registry keeps the one entry of `sysA` instead of
two. -/
theorem create_distinct_types_collide :
    ([sysA, sysB].map (fun s => s.type_info)).Nodup ∧
      create constHash empty sysA = (.ok (), ⟨[(7, sysA)]⟩) ∧
      sysB.type_info ∉ (create constHash empty sysA).2.m_sim_systems.map
        (fun e => e.2.type_info) ∧
      create constHash (create constHash empty sysA).2 sysB
        = (.error (already_exists "A" "B"), ⟨[(7, sysA)]⟩) ∧
      (create_all constHash empty [sysA, sysB]).1
        = .error (already_exists "A" "B") ∧
      (create_all constHash empty [sysA, sysB]).2.m_sim_systems.length = 1 := by
  decide

/-- C5, as the code has it.  On a registry of valid subsystems none of whose
build steps throws anything but the soft failure, `build_systems` returns
normally, has called every build step once, and has cleared the validity flag
of exactly the subsystems that signalled the soft failure.  These stay
registered and listed by `to_json`; once `cleanup_invalid_systems` has run,
the registry and the listing hold exactly the other subsystems, still valid,
under their keys and in their order. -/
theorem build_isolation (c : SimSystemCollection)
    (hvalid : ∀ e ∈ c.m_sim_systems, e.2.m_valid = true)
    (hsoft : ∀ e ∈ c.m_sim_systems, e.2.do_build.isOther = false) :
    (build_systems c).1 = .ok () ∧
      (build_systems c).2.m_sim_systems =
        c.m_sim_systems.map (fun e =>
          (e.1, { e.2 with builds := e.2.builds + 1, m_valid := e.2.do_build.isDone })) ∧
      to_json (build_systems c).2 = to_json c ∧
      (cleanup_invalid_systems (build_systems c).2).m_sim_systems =
        (c.m_sim_systems.filter (fun e => e.2.do_build.isDone)).map (fun e =>
          (e.1, { e.2 with builds := e.2.builds + 1 })) ∧
      to_json (cleanup_invalid_systems (build_systems c).2) =
        (c.m_sim_systems.filter (fun e => e.2.do_build.isDone)).map
          (fun e => e.2.to_json) := by
  have hb := build_loop_append c.m_sim_systems [] hsoft
  simp only [List.append_nil, build_loop] at hb
  have hmap : c.m_sim_systems.map (fun e =>
        (e.1, ({ e.2 with
                 builds := e.2.builds + 1
                 m_valid := e.2.m_valid && e.2.do_build.isDone } : ISimSystem)))
      = c.m_sim_systems.map (fun e =>
        (e.1, ({ e.2 with builds := e.2.builds + 1, m_valid := e.2.do_build.isDone }
          : ISimSystem))) := by
    apply List.map_congr_left
    intro e he
    simp [hvalid e he]
  rw [hmap] at hb
  have h2 : (build_systems c).2.m_sim_systems =
      c.m_sim_systems.map (fun e =>
        (e.1, ({ e.2 with builds := e.2.builds + 1, m_valid := e.2.do_build.isDone }
          : ISimSystem))) := by
    simp [build_systems, hb]
  have h4 : (cleanup_invalid_systems (build_systems c).2).m_sim_systems =
      (c.m_sim_systems.filter (fun e => e.2.do_build.isDone)).map (fun e =>
        (e.1, ({ e.2 with builds := e.2.builds + 1 } : ISimSystem))) := by
    simp only [cleanup_invalid_systems, cleanup_loop_eq_filter, h2, List.filter_map]
    have hf : ((fun e : Nat × ISimSystem => e.2.m_valid) ∘ fun e : Nat × ISimSystem =>
          (e.1, ({ e.2 with builds := e.2.builds + 1, m_valid := e.2.do_build.isDone }
            : ISimSystem)))
        = fun e => e.2.do_build.isDone := by
      funext e; rfl
    rw [hf]
    apply List.map_congr_left
    intro e he
    have hd := (List.mem_filter.1 he).2
    have hv := hvalid e (List.mem_filter.1 he).1
    obtain ⟨k, v⟩ := e
    cases v
    simp only at hd hv
    simp [hd, hv]
  refine ⟨by simp [build_systems, hb], h2, ?_, h4, ?_⟩
  · rw [to_json_eq_map, to_json_eq_map, h2, List.map_map]
    rfl
  · rw [to_json_eq_map, h4, List.map_map]
    rfl

/-- The hypotheses of `build_isolation` hold for the registry of `sysA`,
`sysB`, `sysD`; after build and cleanup the listing holds `A` and `D`. -/
theorem build_isolation_witness :
    to_json (cleanup_invalid_systems
        (build_systems (create_all id empty [sysD, sysB, sysA]).2).2)
      = [("A", true), ("D", true)] :=
  (build_isolation (create_all id empty [sysD, sysB, sysA]).2 (by decide) (by decide)).2.2.2.2

/-- C5 as stated fails: right after `build_systems`, the subsystem `sysB`,
whose build step signalled the soft failure, is marked invalid but is still
registered under its key and still listed by `to_json`. -/
theorem build_keeps_invalid_listed :
    (∀ e ∈ (create_all id empty [sysD, sysB, sysA]).2.m_sim_systems, e.2.m_valid = true) ∧
      (∀ e ∈ (create_all id empty [sysD, sysB, sysA]).2.m_sim_systems,
        e.2.do_build.isOther = false) ∧
      sysB.do_build = .soft "missing collaborator" ∧
      sysB.to_json ∈ to_json (build_systems (create_all id empty [sysD, sysB, sysA]).2).2 ∧
      (SimSystemMap.find (tid id sysB)
          (build_systems (create_all id empty [sysD, sysB, sysA]).2).2.m_sim_systems).map
        (fun v => (v.name, v.m_valid)) = some ("B", false) := by
  decide

/-- C6.  When the build step of a registered subsystem throws something other
than the soft failure (and no earlier one did), `build_systems` ends with that
failure: the subsystems before it in iteration order have been built (and
invalidated on soft failure), the failing one has been called once and keeps
its validity flag, and the subsystems after it are untouched, their build
steps not called. -/
theorem build_fatal_propagates (before later : SimSystemMap) (k : Nat) (s : ISimSystem)
    (what : String)
    (hbefore : ∀ e ∈ before, e.2.do_build.isOther = false)
    (hs : s.do_build = .other what) :
    build_systems ⟨before ++ (k, s) :: later⟩ =
      (.error what,
        ⟨before.map (fun e =>
            (e.1, { e.2 with
                    builds := e.2.builds + 1
                    m_valid := e.2.m_valid && e.2.do_build.isDone }))
          ++ (k, { s with builds := s.builds + 1 }) :: later⟩) := by
  have hb := build_loop_append before ((k, s) :: later) hbefore
  simp [build_systems, hb, build_loop, ISimSystem.build, hs]

/-- The hypotheses of `build_fatal_propagates` hold for `sysA, sysB` followed
by `sysC` and then `sysD`: the failure of `sysC` reaches the caller, `sysC` is
still valid and `sysD` has not been built. -/
theorem build_fatal_propagates_witness :
    build_systems ⟨[(10, sysA), (20, sysB)] ++ (30, sysC) :: [(40, sysD)]⟩ =
      (.error "bad_alloc",
        ⟨[(10, { sysA with builds := 1 }), (20, { sysB with builds := 1, m_valid := false })]
          ++ (30, { sysC with builds := 1 }) :: [(40, sysD)]⟩) :=
  build_fatal_propagates [(10, sysA), (20, sysB)] [(40, sysD)] 30 sysC "bad_alloc"
    (by decide) rfl

/-- C10.  `cleanup_invalid_systems` keeps exactly the entries whose subsystem
is valid, each under its key and in the same order, removes all others, and
running it a second time changes nothing.  With pairwise distinct keys, a
lookup after the cleanup finds a subsystem exactly when the lookup before
found it and it is valid. -/
theorem cleanup_exact (c : SimSystemCollection) :
    (cleanup_invalid_systems c).m_sim_systems
        = c.m_sim_systems.filter (fun e => e.2.is_valid) ∧
      (∀ e, e ∈ (cleanup_invalid_systems c).m_sim_systems ↔
        e ∈ c.m_sim_systems ∧ e.2.is_valid = true) ∧
      cleanup_invalid_systems (cleanup_invalid_systems c) = cleanup_invalid_systems c ∧
      ((c.m_sim_systems.map Prod.fst).Nodup → ∀ k v,
        SimSystemMap.find k (cleanup_invalid_systems c).m_sim_systems = some v ↔
          SimSystemMap.find k c.m_sim_systems = some v ∧ v.is_valid = true) := by
  have h1 : (cleanup_invalid_systems c).m_sim_systems
      = c.m_sim_systems.filter (fun e => e.2.is_valid) := by
    simp [cleanup_invalid_systems, cleanup_loop_eq_filter, ISimSystem.is_valid]
  refine ⟨h1, ?_, ?_, ?_⟩
  · intro e
    rw [h1, List.mem_filter]
  · simp [cleanup_invalid_systems, cleanup_loop_eq_filter]
  · intro hnd k v
    have hnd2 : ((cleanup_invalid_systems c).m_sim_systems.map Prod.fst).Nodup := by
      rw [h1]
      exact hnd.sublist ((List.filter_sublist _).map Prod.fst)
    rw [find_eq_some_iff_mem _ hnd2, find_eq_some_iff_mem _ hnd, h1, List.mem_filter]

/-- On the registry of `sysA` and `sysB` after `build_systems`, whose keys are
distinct, the cleanup drops the invalidated `sysB` and keeps `sysA`. -/
theorem cleanup_exact_witness :
    SimSystemMap.find 10 (cleanup_invalid_systems
        (build_systems (create_all id empty [sysB, sysA]).2).2).m_sim_systems
      = some { sysA with builds := 1 } :=
  ((cleanup_exact (build_systems (create_all id empty [sysB, sysA]).2).2).2.2.2
    (by decide) 10 { sysA with builds := 1 }).2 (by decide)

end SimSystemCollection

end cuda

end backend

end uipc

namespace uipc

namespace geometry

theorem std_copy_of_length_eq {T : Type} (xs ds : List T) (h : xs.length = ds.length) :
    std_copy xs ds = xs := by
  induction xs generalizing ds with
  | nil =>
    cases ds with
    | nil => rfl
    | cons d ds => simp at h
  | cons x xs ih =>
    cases ds with
    | nil => simp at h
    | cons d ds =>
      simp only [List.length_cons, Nat.add_right_cancel_iff] at h
      simp [std_copy, ih ds h]

namespace SimplicialComplex

variable {S : Type}

/-- The complex built by the constructor when the sizes agree. -/
theorem construct_of_length_eq [Zero S] [One S] (asc : AbstractSimplicialComplex)
    (positions : List (Vector3 S)) (h : positions.length = asc.m_vertices.length) :
    construct asc positions = .ok
      { m_intances := base_instances
        m_meta := base_meta
        m_asc := asc
        m_vertex_attributes :=
          ⟨asc.m_vertices.length, [(builtin.position, .vector3 ⟨Vector3.Zero, positions⟩)]⟩
        m_edge_attributes := ⟨asc.m_edges.length, []⟩
        m_triangle_attributes := ⟨asc.m_triangles.length, []⟩
        m_tetrahedron_attributes := ⟨asc.m_tetrahedra.length, []⟩ } := by
  have hc : std_copy positions (List.replicate asc.m_vertices.length (Vector3.Zero : Vector3 S))
      = positions := std_copy_of_length_eq _ _ (by simp [h])
  simp [construct, h, AttributeCollection.resize, AttributeCollection.empty,
    AttributeCollection.create_vector3, AttributeCollection.find_slot,
    AttributeCollection.assign, hc]

/-- C9.  The constructor fails, with the assertion message, exactly when the
number of positions differs from the number of vertices of the topology.
Otherwise it yields a complex over that topology whose vertex, edge, triangle
and tetrahedron collections have as many rows as the topology has vertices,
edges, triangles and tetrahedra, and whose vertex collection holds a `position`
slot, the only slot there, with the given positions in order. -/
theorem construct_checks_sizes [Zero S] [One S] (asc : AbstractSimplicialComplex)
    (positions : List (Vector3 S)) :
    ((∃ msg, construct asc positions = .error msg) ↔
        positions.length ≠ asc.m_vertices.length) ∧
      (positions.length ≠ asc.m_vertices.length →
        construct asc positions
          = .error (size_mismatch asc.m_vertices.length positions.length)) ∧
      (positions.length = asc.m_vertices.length →
        ∃ sc, construct asc positions = .ok sc ∧
          sc.m_asc = asc ∧
          sc.m_vertex_attributes.size = asc.m_vertices.length ∧
          sc.m_edge_attributes.size = asc.m_edges.length ∧
          sc.m_triangle_attributes.size = asc.m_triangles.length ∧
          sc.m_tetrahedron_attributes.size = asc.m_tetrahedra.length ∧
          sc.m_vertex_attributes.m_attributes
            = [(builtin.position, .vector3 ⟨Vector3.Zero, positions⟩)] ∧
          sc.positions = some ⟨Vector3.Zero, positions⟩ ∧
          (sc.positions.map (fun a => a.m_values.length)) = some asc.m_vertices.length) := by
  have hok : positions.length = asc.m_vertices.length →
      ∃ sc, construct asc positions = .ok sc ∧
          sc.m_asc = asc ∧
          sc.m_vertex_attributes.size = asc.m_vertices.length ∧
          sc.m_edge_attributes.size = asc.m_edges.length ∧
          sc.m_triangle_attributes.size = asc.m_triangles.length ∧
          sc.m_tetrahedron_attributes.size = asc.m_tetrahedra.length ∧
          sc.m_vertex_attributes.m_attributes
            = [(builtin.position, .vector3 ⟨Vector3.Zero, positions⟩)] ∧
          sc.positions = some ⟨Vector3.Zero, positions⟩ ∧
          (sc.positions.map (fun a => a.m_values.length)) = some asc.m_vertices.length := by
    intro h
    refine ⟨_, construct_of_length_eq asc positions h, ?_⟩
    simp [AttributeCollection.size, SimplicialComplex.positions,
      AttributeCollection.find_vector3, AttributeCollection.find_slot, h]
  have herr : positions.length ≠ asc.m_vertices.length →
      construct asc positions
        = .error (size_mismatch asc.m_vertices.length positions.length) := by
    intro h
    simp [construct, h]
  refine ⟨⟨?_, fun h => ⟨_, herr h⟩⟩, herr, hok⟩
  rintro ⟨msg, hmsg⟩ heq
  obtain ⟨sc, hsc, _⟩ := hok heq
  rw [hsc] at hmsg
  cases hmsg

/-- The constructor accepts the four positions of `tetPositions` over
`tetTopo` and rejects three of them. -/
theorem construct_checks_sizes_witness :
    (∃ sc, construct tetTopo tetPositions = .ok sc ∧
        sc.positions = some ⟨Vector3.Zero, tetPositions⟩) ∧
      construct tetTopo tetPositions.tail = .error (size_mismatch 4 3) :=
  have h := construct_checks_sizes tetTopo tetPositions
  have h3 := construct_checks_sizes tetTopo tetPositions.tail
  ⟨by
    obtain ⟨sc, h1, _, _, _, _, _, _, h2, _⟩ := h.2.2 (by decide)
    exact ⟨sc, h1, h2⟩,
   h3.2.1 (by decide)⟩

end SimplicialComplex

end geometry

end uipc

namespace uipc

namespace geometry

theorem collect_of_isSome {T : Type} (l : List (Option T))
    (h : ∀ o ∈ l, o.isSome = true) : ∃ xs, collect l = some xs ∧ l = xs.map some := by
  induction l with
  | nil => exact ⟨[], rfl, rfl⟩
  | cons o rest ih =>
    obtain ⟨xs, h1, h2⟩ := ih (fun o ho => h o (List.mem_cons_of_mem _ ho))
    have ho := h o (List.mem_cons_self _ _)
    cases o with
    | none => simp at ho
    | some x => exact ⟨x :: xs, by simp [collect, h1], by simp [← h2]⟩

namespace Attribute

variable {T : Type}

/-- Narrowing a column to its row `i`: resize to one row, then copy row `i`
into row `0`. -/
theorem narrow_values (a : Attribute T) (i : Nat) (x : T) (hx : a.m_values[i]? = some x) :
    ((a.resize 1).copy_range a 0 i 1) = ⟨a.m_default, [x]⟩ := by
  cases a with
  | mk d vals =>
    cases vals with
    | nil => simp at hx
    | cons v vs =>
      simp only at hx
      simp [resize, copy_range, List.range_succ, hx]

end Attribute

namespace AttributeSlot

variable {S : Type}

theorem row_isSome_of_lt (slot : AttributeSlot S) (i : Nat) (h : i < slot.size) :
    ∃ v, slot.row i = some v := by
  cases slot with
  | vector3 a => exact ⟨_, by simp [row, size] at h ⊢; exact ⟨_, List.getElem?_eq_getElem h, rfl⟩⟩
  | matrix4x4 a => exact ⟨_, by simp [row, size] at h ⊢; exact ⟨_, List.getElem?_eq_getElem h, rfl⟩⟩
  | index a => exact ⟨_, by simp [row, size] at h ⊢; exact ⟨_, List.getElem?_eq_getElem h, rfl⟩⟩
  | scalar a => exact ⟨_, by simp [row, size] at h ⊢; exact ⟨_, List.getElem?_eq_getElem h, rfl⟩⟩

/-- Narrowing a slot to its row `i` leaves one row, the former row `i`. -/
theorem narrow_row (slot : AttributeSlot S) (i : Nat) (h : i < slot.size) :
    ((slot.resize 1).copy_range 0 i 1 slot).size = 1 ∧
      ((slot.resize 1).copy_range 0 i 1 slot).row 0 = slot.row i := by
  cases slot with
  | vector3 a =>
    simp only [size] at h
    have hx := List.getElem?_eq_getElem h
    simp [resize, copy_range, Attribute.narrow_values a i _ hx, size, row, hx]
  | matrix4x4 a =>
    simp only [size] at h
    have hx := List.getElem?_eq_getElem h
    simp [resize, copy_range, Attribute.narrow_values a i _ hx, size, row, hx]
  | index a =>
    simp only [size] at h
    have hx := List.getElem?_eq_getElem h
    simp [resize, copy_range, Attribute.narrow_values a i _ hx, size, row, hx]
  | scalar a =>
    simp only [size] at h
    have hx := List.getElem?_eq_getElem h
    simp [resize, copy_range, Attribute.narrow_values a i _ hx, size, row, hx]

end AttributeSlot

namespace AttributeCollection

variable {S : Type}

/-- Lookup in a collection whose slots were rewritten in place. -/
theorem find_slot_map (n : Nat) (l : List (String × AttributeSlot S))
    (f : String × AttributeSlot S → AttributeSlot S) (name : String) :
    find_slot ⟨n, l.map (fun e => (e.1, f e))⟩ name
      = (l.find? (fun e => e.1 == name)).map f := by
  simp only [find_slot]
  induction l with
  | nil => simp
  | cons e rest ih =>
    by_cases he : e.1 = name
    · simp [List.find?_cons, he]
    · have hb : (e.1 == name) = false := by simp [he]
      simp only [List.map_cons, List.find?_cons, hb]
      exact ih

theorem find_slot_mem (c : AttributeCollection S) (name : String) (slot : AttributeSlot S)
    (h : c.find_slot name = some slot) : (name, slot) ∈ c.m_attributes := by
  simp only [find_slot, Option.map_eq_some'] at h
  obtain ⟨e, he, hs⟩ := h
  have h1 := List.find?_some he
  have h2 := List.mem_of_find?_eq_some he
  simp only [beq_iff_eq] at h1
  obtain ⟨k, v⟩ := e
  simp only at h1 hs
  subst h1; subst hs
  exact h2

theorem find_slot_assign (c : AttributeCollection S) (name : String)
    (slot : AttributeSlot S) (name1 : String) :
    (c.assign name slot).find_slot name1
      = if name1 = name then (c.find_slot name1).map (fun _ => slot)
        else c.find_slot name1 := by
  have hf : (fun e : String × AttributeSlot S => if e.1 == name then (e.1, slot) else e)
      = fun e => (e.1, if e.1 == name then slot else e.2) := by
    funext e
    by_cases he : e.1 = name <;> simp [he]
  simp only [assign, hf]
  rw [find_slot_map]
  simp only [find_slot]
  cases hfind : List.find? (fun e => e.1 == name1) c.m_attributes with
  | none => simp
  | some e =>
    have h1 := List.find?_some hfind
    simp only [beq_iff_eq] at h1
    by_cases hn : name1 = name
    · simp [hn, h1 ▸ hn]
    · have : ¬ e.1 = name := fun h => hn (h1 ▸ h)
      simp [hn, this]

/-- Lookup after `resize(1)` followed by `copy_from(other, range(0, i, 1))`
with `other` the collection itself before the resize. -/
theorem find_slot_narrow (c : AttributeCollection S) (i : Nat) (name : String) :
    ((c.resize 1).copy_from c (AttributeCopy.range 0 i 1) [] []).find_slot name
      = (c.find_slot name).map (fun slot => (slot.resize 1).copy_range 0 i 1 slot) := by
  have hf : ((c.resize 1).copy_from c (AttributeCopy.range 0 i 1) [] [])
      = ⟨1, c.m_attributes.map (fun e => (e.1,
          match c.find_slot e.1 with
          | some src => (e.2.resize 1).copy_range 0 i 1 src
          | none => e.2.resize 1))⟩ := by
    simp only [copy_from, resize, selected, AttributeCopy.range, List.map_map]
    congr 1
    apply List.map_congr_left
    intro e _
    simp only [Function.comp]
    cases c.find_slot e.1 <;> simp
  rw [hf, find_slot_map]
  simp only [find_slot]
  cases hfind : List.find? (fun e => e.1 == name) c.m_attributes with
  | none => simp
  | some e =>
    have h1 := List.find?_some hfind
    simp only [beq_iff_eq] at h1
    subst h1
    simp [find_slot, hfind]

end AttributeCollection

theorem find_slot_of_find_matrix4x4 {S : Type} (c : AttributeCollection S) (name : String)
    (T : Attribute (Matrix4x4 S)) (h : c.find_matrix4x4 name = some T) :
    c.find_slot name = some (.matrix4x4 T) := by
  simp only [AttributeCollection.find_matrix4x4] at h
  split at h
  · rename_i a ha
    simp only [Option.some.injEq] at h
    rw [ha, h]
  · simp at h

/-- The loop body of `apply_transform` at an index whose transform row exists. -/
theorem apply_transform_at_eq {S : Type} [Zero S] [One S] [Add S] [Mul S]
    (complex : SimplicialComplex S) (T : Attribute (Matrix4x4 S))
    (Vs : Attribute (Vector3 S)) (i : Nat) (Ti : Matrix4x4 S)
    (hT : complex.transforms = some T) (hP : complex.positions = some Vs)
    (hTi : T.m_values[i]? = some Ti) :
    apply_transform_at complex i = some
      { complex with
        m_intances :=
          ((complex.m_intances.resize 1).copy_from complex.m_intances
              (AttributeCopy.range 0 i 1) [] []).assign builtin.transform
            (.matrix4x4 ⟨T.m_default, [Matrix4x4.Identity]⟩)
        m_vertex_attributes :=
          complex.m_vertex_attributes.assign builtin.position
            (.vector3 ⟨Vs.m_default, Vs.m_values.map (fun v => Transform.apply Ti v)⟩) } := by
  have hslot := find_slot_of_find_matrix4x4 _ _ T hT
  have hR : ((complex.m_intances.resize 1).copy_from complex.m_intances
      (AttributeCopy.range 0 i 1) [] []).find_matrix4x4 builtin.transform
        = some ⟨T.m_default, [Ti]⟩ := by
    simp [AttributeCollection.find_matrix4x4, AttributeCollection.find_slot_narrow, hslot,
      AttributeSlot.resize, AttributeSlot.copy_range, Attribute.narrow_values T i Ti hTi]
  simp only [SimplicialComplex.positions] at hP
  simp [apply_transform_at, SimplicialComplex.transforms, SimplicialComplex.positions, hR, hP]

/-- C7 (de-instancing).  Let `complex` hold its `transform` slot `T` and its
`position` slot `Vs`, every instance slot having one row per instance.  Then
`apply_transform` returns as many geometries as `complex` has instances, and
the `i`-th of them has one instance, the positions of `complex` each
transformed by row `i` of `T` (in order), the identity as its only transform
row, and under every other instance attribute name one row, equal to row `i`
of that attribute in `complex`; no instance attribute is added, and the meta
collection, the topology and all other vertex, edge, triangle and tetrahedron
attributes are those of `complex`. -/
theorem apply_transform_deinstances {S : Type} [Zero S] [One S] [Add S] [Mul S]
    (complex : SimplicialComplex S) (T : Attribute (Matrix4x4 S))
    (Vs : Attribute (Vector3 S))
    (hT : complex.transforms = some T) (hP : complex.positions = some Vs)
    (hrows : ∀ e ∈ complex.instances.m_attributes, e.2.size = complex.instances.size) :
    ∃ Rs, apply_transform complex = some Rs ∧
      Rs.length = complex.instances.size ∧
      ∀ i R, Rs[i]? = some R →
        ∃ Ti, T.m_values[i]? = some Ti ∧
          R.instances.size = 1 ∧
          R.positions = some ⟨Vs.m_default, Vs.m_values.map (fun v => Transform.apply Ti v)⟩ ∧
          R.transforms = some ⟨T.m_default, [Matrix4x4.Identity]⟩ ∧
          (∀ name slot, name ≠ builtin.transform →
            complex.instances.find_slot name = some slot →
            ∃ slot1, R.instances.find_slot name = some slot1 ∧ slot1.size = 1 ∧
              slot1.row 0 = slot.row i ∧ (slot.row i).isSome = true) ∧
          (∀ name, complex.instances.find_slot name = none →
            R.instances.find_slot name = none) ∧
          R.m_meta = complex.m_meta ∧ R.m_asc = complex.m_asc ∧
          R.m_vertex_attributes.size = complex.m_vertex_attributes.size ∧
          (∀ name, name ≠ builtin.position →
            R.m_vertex_attributes.find_slot name
              = complex.m_vertex_attributes.find_slot name) ∧
          R.m_edge_attributes = complex.m_edge_attributes ∧
          R.m_triangle_attributes = complex.m_triangle_attributes ∧
          R.m_tetrahedron_attributes = complex.m_tetrahedron_attributes := by
  have hslot := find_slot_of_find_matrix4x4 _ _ T hT
  have hTlen : T.m_values.length = complex.instances.size := by
    have hmem := AttributeCollection.find_slot_mem _ _ _ hslot
    simpa [AttributeSlot.size] using hrows _ hmem
  have hrow : ∀ i, i < complex.instances.size → ∃ Ti, T.m_values[i]? = some Ti := by
    intro i hi
    exact ⟨_, List.getElem?_eq_getElem (by rw [hTlen]; exact hi)⟩
  have hsome : ∀ o ∈ (List.range complex.instances.size).map (apply_transform_at complex),
      o.isSome = true := by
    intro o ho
    obtain ⟨i, hi, rfl⟩ := List.mem_map.1 ho
    obtain ⟨Ti, hTi⟩ := hrow i (List.mem_range.1 hi)
    rw [apply_transform_at_eq complex T Vs i Ti hT hP hTi]
    rfl
  obtain ⟨Rs, hRs, hmap⟩ := collect_of_isSome _ hsome
  have hlen : Rs.length = complex.instances.size := by
    have := congrArg List.length hmap
    simpa using this.symm
  refine ⟨Rs, hRs, hlen, ?_⟩
  intro i R hR
  have hi : i < complex.instances.size := by
    rw [← hlen]
    exact (List.getElem?_eq_some.1 hR).1
  obtain ⟨Ti, hTi⟩ := hrow i hi
  have hat : apply_transform_at complex i = some R := by
    have h1 := congrArg (fun l => l[i]?) hmap
    simp only [List.getElem?_map, hR, Option.map_some', List.getElem?_range hi] at h1
    exact Option.some.inj h1
  rw [apply_transform_at_eq complex T Vs i Ti hT hP hTi] at hat
  simp only [Option.some.injEq] at hat
  subst hat
  have hPslot : complex.m_vertex_attributes.find_slot builtin.position = some (.vector3 Vs) := by
    simp only [SimplicialComplex.positions, AttributeCollection.find_vector3] at hP
    split at hP
    · rename_i a ha
      simp only [Option.some.injEq] at hP
      rw [ha, hP]
    · simp at hP
  refine ⟨Ti, hTi, ?_, ?_, ?_, ?_, ?_, rfl, rfl, ?_, ?_, rfl, rfl, rfl⟩
  · simp [SimplicialComplex.instances, AttributeCollection.size, AttributeCollection.assign,
      AttributeCollection.copy_from, AttributeCollection.resize]
  · simp [SimplicialComplex.positions, AttributeCollection.find_vector3,
      AttributeCollection.find_slot_assign, hPslot]
  · simp [SimplicialComplex.transforms, AttributeCollection.find_matrix4x4,
      AttributeCollection.find_slot_assign, AttributeCollection.find_slot_narrow, hslot]
  · intro name slot hname hfind
    simp only [SimplicialComplex.instances] at hfind hrows ⊢
    have hsz : i < slot.size := by
      rw [hrows _ (AttributeCollection.find_slot_mem _ _ _ hfind)]
      exact hi
    obtain ⟨v, hv⟩ := AttributeSlot.row_isSome_of_lt slot i hsz
    obtain ⟨n1, n2⟩ := AttributeSlot.narrow_row slot i hsz
    refine ⟨(slot.resize 1).copy_range 0 i 1 slot, ?_, n1, n2, by simp [hv]⟩
    simp [AttributeCollection.find_slot_assign, AttributeCollection.find_slot_narrow, hname,
      hfind]
  · intro name hfind
    simp only [SimplicialComplex.instances] at hfind ⊢
    by_cases hname : name = builtin.transform
    · rw [hname, hslot] at hfind
      cases hfind
    · simp [AttributeCollection.find_slot_assign, AttributeCollection.find_slot_narrow, hname,
        hfind]
  · simp [AttributeCollection.size, AttributeCollection.assign]
  · intro name hname
    simp [AttributeCollection.find_slot_assign, hname]

end geometry

end uipc

namespace uipc

namespace geometry

/-- The hypotheses of `apply_transform_deinstances` hold for `twoInstances`,
which is split into two geometries. -/
theorem apply_transform_deinstances_witness :
    ∃ Rs, apply_transform twoInstances = some Rs ∧ Rs.length = 2 :=
  have h := apply_transform_deinstances twoInstances
    ⟨Matrix4x4.Identity,
      [⟨⟨1, 0, 0, 1⟩, ⟨0, 1, 0, 0⟩, ⟨0, 0, 1, 0⟩, ⟨0, 0, 0, 1⟩⟩,
       ⟨⟨2, 0, 0, 0⟩, ⟨0, 2, 0, 0⟩, ⟨0, 0, 2, 0⟩, ⟨0, 0, 0, 1⟩⟩]⟩
    ⟨Vector3.Zero, tetPositions⟩ (by decide) (by decide) (by decide)
  h.elim fun Rs hRs => ⟨Rs, hRs.1, hRs.2.1⟩

namespace sharing

variable {T : Type}

theorem share_lookup (h : Heap T) (s j : Nat) (b : Storage T) (hb : h[j]? = some b) :
    ∃ b1, (Heap.share h s)[j]? = some b1 ∧ b1.values = b.values ∧
      b.owners ≤ b1.owners ∧ (j = s → b.owners < b1.owners) := by
  by_cases hjs : j = s
  · subst hjs
    have hlt : j < h.length := (List.getElem?_eq_some.1 hb).1
    refine ⟨{ b with owners := b.owners + 1 }, ?_, rfl, Nat.le_succ _, fun _ => Nat.lt_succ_self _⟩
    simp [Heap.share, hb, List.getElem?_set, hlt]
  · refine ⟨b, ?_, rfl, le_refl _, fun h => absurd h hjs⟩
    simp only [Heap.share]
    cases hs : h[s]? with
    | none => exact hb
    | some c =>
      have hne : s ≠ j := fun h => hjs h.symm
      simp [List.getElem?_set, hne, hb]

theorem copy_lookup (slots : List (String × Nat)) (h : Heap T) (j : Nat) (b : Storage T)
    (hb : h[j]? = some b) :
    ∃ b1, (slots.foldl (fun h e => Heap.share h e.2) h)[j]? = some b1 ∧
      b1.values = b.values ∧ b.owners ≤ b1.owners ∧
      (j ∈ slots.map Prod.snd → b.owners < b1.owners) := by
  induction slots generalizing h b with
  | nil => exact ⟨b, hb, rfl, le_refl _, by simp⟩
  | cons e rest ih =>
    obtain ⟨b1, h1, h2, h3, h4⟩ := share_lookup h e.2 j b hb
    obtain ⟨b2, k1, k2, k3, k4⟩ := ih (Heap.share h e.2) b1 h1
    refine ⟨b2, k1, k2.trans h2, h3.trans k3, ?_⟩
    intro hmem
    simp only [List.map_cons, List.mem_cons] at hmem
    rcases hmem with hj | hj
    · exact lt_of_lt_of_le (h4 hj) k3
    · exact lt_of_le_of_lt h3 (k4 hj)

theorem positions_mem (g : GeometryHandle) (slot : Nat) (h : g.positions = some slot) :
    slot ∈ g.slots.map Prod.snd := by
  simp only [GeometryHandle.positions, Option.map_eq_some'] at h
  obtain ⟨e, he, hs⟩ := h
  exact List.mem_map.2 ⟨e, List.mem_of_find?_eq_some he, hs⟩

theorem reads_heap (r : Created T) (accesses : List Access) :
    r.reads accesses = r := by
  induction accesses generalizing r with
  | nil => rfl
  | cons a rest ih =>
    have h1 : r.read a = r := by
      cases a <;> simp only [Created.read] <;> split <;> simp [Heap.view] <;> split <;> rfl
    simp [Created.reads, h1, ih]

/-- C8 (zero-copy duplication).  Let the mesh hold its positions in storage
`slot`.  After `create`, the geometry and the rest geometry both have that
storage as their position slot, so their position sequences are the same
values in the same order, those of the mesh, and the storage is shared.  Any
sequence of read-only views of the two slots leaves all of this as it is.  A
mutating access to the positions of the geometry then moves it to storage of
its own, not shared, holding the same values, and leaves the values seen by
the rest geometry in place. -/
theorem zero_copy_duplication (h : Heap T) (mesh : GeometryHandle) (slot : Nat)
    (b : Storage T) (accesses : List Access)
    (hpos : mesh.positions = some slot) (hb : h[slot]? = some b) :
    (create h mesh).geo.positions = some slot ∧
      (create h mesh).rest_geo.positions = some slot ∧
      Heap.is_shared (create h mesh).heap slot = true ∧
      (Heap.view (create h mesh).heap slot).1 = b.values ∧
      ((create h mesh).reads accesses).geo.positions = some slot ∧
      ((create h mesh).reads accesses).rest_geo.positions = some slot ∧
      Heap.is_shared ((create h mesh).reads accesses).heap slot = true ∧
      (Heap.view ((create h mesh).reads accesses).heap slot).1 = b.values ∧
      (Heap.view_mut (create h mesh).heap slot).2 ≠ slot ∧
      Heap.is_shared (Heap.view_mut (create h mesh).heap slot).1
        (Heap.view_mut (create h mesh).heap slot).2 = false ∧
      (Heap.view (Heap.view_mut (create h mesh).heap slot).1
        (Heap.view_mut (create h mesh).heap slot).2).1 = b.values ∧
      (Heap.view (Heap.view_mut (create h mesh).heap slot).1 slot).1 = b.values := by
  have hmem := positions_mem mesh slot hpos
  obtain ⟨b1, h1, v1, o1, l1⟩ := copy_lookup mesh.slots h slot b hb
  obtain ⟨b2, h2, v2, o2, l2⟩ := copy_lookup mesh.slots _ slot b1 h1
  have hheap : (create h mesh).heap[slot]? = some b2 := h2
  have hown : 1 < b2.owners := by
    have := l1 hmem
    have := l2 hmem
    omega
  have hlt : slot < (create h mesh).heap.length := (List.getElem?_eq_some.1 hheap).1
  have hshared : Heap.is_shared (create h mesh).heap slot = true := by
    simp [Heap.is_shared, hheap, hown]
  have hview : (Heap.view (create h mesh).heap slot).1 = b.values := by
    simp [Heap.view, hheap, v2, v1]
  rw [reads_heap]
  refine ⟨hpos, hpos, hshared, hview, hpos, hpos, hshared, hview, ?_, ?_, ?_, ?_⟩
  · simp only [Heap.view_mut, hheap, hown, if_true]
    exact Nat.ne_of_gt hlt
  · simp [Heap.view_mut, hheap, hown, Heap.is_shared]
  · simp [Heap.view_mut, hheap, hown, Heap.view, v2, v1]
  · simp [Heap.view_mut, hheap, hown, Heap.view, List.getElem?_append_left, hlt,
      List.getElem?_set, v2, v1]

/-- The hypotheses of `zero_copy_duplication` hold for the cube mesh: after
`create` and two read-only views the positions are shared. -/
theorem zero_copy_duplication_witness :
    Heap.is_shared ((create cubeHeap cubeMesh).reads [.geo_view, .rest_view]).heap 0 = true ∧
      (Heap.view ((create cubeHeap cubeMesh).reads [.geo_view, .rest_view]).heap 0).1
        = cubePositions :=
  have h := zero_copy_duplication cubeHeap cubeMesh 0 ⟨cubePositions, 1⟩
    [.geo_view, .rest_view] (by decide) (by decide)
  ⟨h.2.2.2.2.2.2.1, h.2.2.2.2.2.2.2.1⟩

end sharing

end geometry

end uipc

namespace uipc

namespace geometry

namespace SimplicialComplex

variable {S : Type}

/-- C11.  `dim()` is `3` when the topology has a tetrahedron, else `2` when it
has a triangle, else `1` when it has an edge, else `0`; it is always one of
`0, 1, 2, 3`, and it is the same for any two complexes whose topologies have
the same edges, triangles and tetrahedra, whatever their vertices and
attributes. -/
theorem dim_highest_populated (sc : SimplicialComplex S) :
    (0 < sc.m_asc.m_tetrahedra.length → sc.dim = 3) ∧
      (sc.m_asc.m_tetrahedra.length = 0 → 0 < sc.m_asc.m_triangles.length → sc.dim = 2) ∧
      (sc.m_asc.m_tetrahedra.length = 0 → sc.m_asc.m_triangles.length = 0 →
        0 < sc.m_asc.m_edges.length → sc.dim = 1) ∧
      (sc.m_asc.m_tetrahedra.length = 0 → sc.m_asc.m_triangles.length = 0 →
        sc.m_asc.m_edges.length = 0 → sc.dim = 0) ∧
      (sc.dim = 0 ∨ sc.dim = 1 ∨ sc.dim = 2 ∨ sc.dim = 3) ∧
      (∀ sc1 : SimplicialComplex S,
        sc1.m_asc.m_edges = sc.m_asc.m_edges →
        sc1.m_asc.m_triangles = sc.m_asc.m_triangles →
        sc1.m_asc.m_tetrahedra = sc.m_asc.m_tetrahedra → sc1.dim = sc.dim) := by
  refine ⟨?_, ?_, ?_, ?_, ?_, ?_⟩
  · intro h
    simp [dim, h]
  · intro h3 h2
    simp [dim, h3, h2]
  · intro h3 h2 h1
    simp [dim, h3, h2, h1]
  · intro h3 h2 h1
    simp [dim, h3, h2, h1]
  · unfold dim
    split
    · exact Or.inr (Or.inr (Or.inr rfl))
    · split
      · exact Or.inr (Or.inr (Or.inl rfl))
      · split
        · exact Or.inr (Or.inl rfl)
        · exact Or.inl rfl
  · intro sc1 h1 h2 h3
    simp [dim, h1, h2, h3]

/-- The complex `twoInstances` has a tetrahedron, so its dimension is `3`, and
dropping its vertices from the topology does not change that. -/
theorem dim_highest_populated_witness :
    twoInstances.dim = 3 ∧
      ({ twoInstances with m_asc := ⟨[], [], [], [(0, 1, 2, 3)]⟩ }
        : SimplicialComplex Int).dim = twoInstances.dim :=
  have h := dim_highest_populated twoInstances
  ⟨h.1 (by decide), h.2.2.2.2.2 _ rfl rfl rfl⟩

end SimplicialComplex

end geometry

end uipc

namespace uipc

namespace core

namespace World

variable {E : Type}

/-- C12.  With `sanity_check.enable` false, `sanity_check` runs no checker and
leaves the world as it is, whatever the checkers would have found.  On a valid
world `init` then binds the scene, calls the scene's init, the engine's init
and reads the status, each once and in that order, and the world is valid
afterwards exactly when the status reports no error. -/
theorem init_without_sanity_check (eng : Engine E) (w : World E) (s : Scene)
    (hv : w.m_valid = true) (hen : s.sanity_check_enable = false) :
    w.sanity_check s = w ∧
      (w.init eng s).m_scene = some s ∧
      (w.init eng s).calls = w.calls ++ [.scene_init s.id, .engine_init, .engine_status] ∧
      (w.init eng s).m_engine = eng.init s w.m_engine ∧
      ((w.init eng s).m_valid = true ↔
        eng.has_error (eng.init s w.m_engine) = false) := by
  cases w with
  | mk e sc v cl =>
    simp only at hv
    subst hv
    cases hb : eng.has_error (eng.init s e) <;>
      simp [init, sanity_check, log, hen, hb]

/-- The hypotheses of `init_without_sanity_check` hold for a fresh world and
`sceneUnchecked`, whose check would fail: the scene is bound and the world
stays valid. -/
theorem init_without_sanity_check_witness :
    (freshWorld.init counterEngine sceneUnchecked).m_scene = some sceneUnchecked ∧
      (freshWorld.init counterEngine sceneUnchecked).m_valid = true :=
  have h := init_without_sanity_check counterEngine freshWorld sceneUnchecked
    (by decide) (by decide)
  ⟨h.2.1, h.2.2.2.2.2 (by decide)⟩

/-- A call changes the bound scene only if it is an `init`, which binds its
own scene. -/
theorem call_scene (eng : Engine E) (w : World E) (c : Call) :
    (w.call eng c).2.m_scene = w.m_scene ∨
      ∃ s, c = .init s ∧ (w.call eng c).2.m_scene = some s := by
  cases w with
  | mk e sc v cl =>
    cases v with
    | false =>
      left
      have h := call_of_invalid eng (World.mk e sc false cl) c rfl
      rw [h]
      rfl
    | true =>
      cases c with
      | init s =>
        by_cases hs : s.sanity_check_enable = true
        · cases hr : s.check_result with
          | Error =>
            left
            simp [call, init, sanity_check, log, hs, hr]
          | Success =>
            right
            refine ⟨s, rfl, ?_⟩
            simp only [call, init, sanity_check, log, hs, hr]
            simp only [Bool.not_true, Bool.false_eq_true, if_false, if_true]
            split <;> rfl
          | Warning =>
            right
            refine ⟨s, rfl, ?_⟩
            simp only [call, init, sanity_check, log, hs, hr]
            simp only [Bool.not_true, Bool.false_eq_true, if_false, if_true]
            split <;> rfl
        · right
          refine ⟨s, rfl, ?_⟩
          simp only [call, init, sanity_check, log, hs]
          simp only [Bool.not_true, Bool.false_eq_true, if_false]
          split <;> rfl
      | advance =>
        left
        simp only [call, advance, log, Bool.not_true, Bool.false_eq_true, if_false]
        split <;> rfl
      | sync =>
        left
        simp only [call, sync, log, Bool.not_true, Bool.false_eq_true, if_false]
        split <;> rfl
      | retrieve =>
        left
        simp only [call, retrieve, log, Bool.not_true, Bool.false_eq_true, if_false]
        split <;> rfl
      | backward =>
        left
        simp only [call, backward, log, Bool.not_true, Bool.false_eq_true, if_false]
        split <;> rfl
      | dump =>
        left
        simp only [call, dump, log, Bool.not_true, Bool.false_eq_true, if_false]
        split <;> rfl
      | recover n =>
        left
        cases sc with
        | none => rfl
        | some s0 =>
          simp only [call, recover, log, Option.isNone_some, Bool.not_true,
            Bool.false_eq_true, if_false]
          split <;> rfl
      | frame => left; rfl

/-- The scene bound after a sequence of calls was bound before it, or by an
`init` of the sequence. -/
theorem scene_bound_by_init (eng : Engine E) (cs : List Call) (w : World E) (s : Scene)
    (h : (w.after eng cs).m_scene = some s) :
    w.m_scene = some s ∨
      ∃ pre post, cs = pre ++ .init s :: post ∧
        (w.after eng (pre ++ [.init s])).m_scene = some s := by
  induction cs generalizing w with
  | nil => exact Or.inl h
  | cons c rest ih =>
    rw [after_cons] at h
    rcases ih (w.call eng c).2 h with h1 | ⟨pre, post, hcs, hsc⟩
    · rcases call_scene eng w c with h2 | ⟨s1, hc, h2⟩
      · exact Or.inl (h2 ▸ h1)
      · rw [h1] at h2
        cases h2
        refine Or.inr ⟨[], rest, by simp [hc], ?_⟩
        rw [List.nil_append, after_cons, after_nil, ← hc]
        exact h1
    · refine Or.inr ⟨c :: pre, post, by simp [hcs], ?_⟩
      rw [List.cons_append, after_cons]
      exact hsc

/-- A world that is valid after a sequence of calls was valid after each
prefix of it. -/
theorem valid_of_after_valid (eng : Engine E) (w : World E) (xs ys : List Call)
    (h : (w.after eng (xs ++ ys)).m_valid = true) : (w.after eng xs).m_valid = true := by
  cases hx : (w.after eng xs).m_valid with
  | true => rfl
  | false =>
    rw [after_append, (after_of_invalid eng _ ys hx).1] at h
    cases h

/-- An `init` that leaves the world valid has bound its scene. -/
theorem init_valid_binds (eng : Engine E) (w : World E) (s : Scene)
    (h : (w.init eng s).m_valid = true) : (w.init eng s).m_scene = some s := by
  cases w with
  | mk e sc v cl =>
    cases v with
    | false =>
      have h1 := call_of_invalid eng (World.mk e sc false cl) (.init s) rfl
      simp only [call, Prod.mk.injEq] at h1
      rw [h1.2] at h
      simp [log] at h
    | true =>
      by_cases hs : s.sanity_check_enable = true
      · cases hr : s.check_result with
        | Error => simp [init, sanity_check, log, hs, hr] at h
        | Success =>
          simp only [init, sanity_check, log, hs, hr]
          simp only [Bool.not_true, Bool.false_eq_true, if_false, if_true]
          split <;> rfl
        | Warning =>
          simp only [init, sanity_check, log, hs, hr]
          simp only [Bool.not_true, Bool.false_eq_true, if_false, if_true]
          split <;> rfl
      · simp only [init, sanity_check, log, hs]
        simp only [Bool.not_true, Bool.false_eq_true, if_false]
        split <;> rfl

/-- Once a scene is bound, a scene stays bound. -/
theorem scene_stays_bound (eng : Engine E) (cs : List Call) (w : World E)
    (h : w.m_scene.isSome = true) : (w.after eng cs).m_scene.isSome = true := by
  induction cs generalizing w with
  | nil => exact h
  | cons c rest ih =>
    rw [after_cons]
    apply ih
    rcases call_scene eng w c with h2 | ⟨s1, _, h2⟩
    · rw [h2]; exact h
    · rw [h2]; rfl

/-- In a valid world reached from one without a scene, a scene is bound
exactly when some `init` of the history left the world valid. -/
theorem scene_bound_iff_successful_init (eng : Engine E) (w0 : World E) (cs : List Call)
    (h0 : w0.m_scene = none) (hv : (w0.after eng cs).m_valid = true) :
    (w0.after eng cs).m_scene.isSome = true ↔
      ∃ pre s post, cs = pre ++ .init s :: post ∧
        (w0.after eng (pre ++ [.init s])).m_valid = true := by
  constructor
  · intro hsome
    obtain ⟨s, hs⟩ := Option.isSome_iff_exists.1 hsome
    rcases scene_bound_by_init eng cs w0 s hs with h1 | ⟨pre, post, hcs, _⟩
    · rw [h0] at h1
      cases h1
    · refine ⟨pre, s, post, hcs, ?_⟩
      have hv2 : (w0.after eng ((pre ++ [Call.init s]) ++ post)).m_valid = true := by
        rw [List.append_assoc, List.singleton_append, ← hcs]
        exact hv
      exact valid_of_after_valid eng w0 (pre ++ [Call.init s]) post hv2
  · rintro ⟨pre, s, post, hcs, hvalid⟩
    have hb : (w0.after eng (pre ++ [.init s])).m_scene = some s := by
      rw [after_append, after_cons, after_nil] at hvalid ⊢
      exact init_valid_binds eng _ s hvalid
    have hcs2 : cs = (pre ++ [.init s]) ++ post := by
      rw [List.append_assoc, List.singleton_append]
      exact hcs
    rw [hcs2, after_append]
    exact scene_stays_bound eng post _ (by rw [hb]; rfl)

/-- C13.  `recover` returns `true` exactly when a scene is bound, the world is
valid, the engine's recover returns `true` and the status read after it
reports no error.  With no scene bound it returns `false` and leaves the world
as it is, valid or not: no engine call, same validity flag.  Whenever it
returns `true` the world is valid afterwards.  In a world reached from one
without a scene, "a scene is bound and the world is valid" is the same as "an
`init` of the history left the world valid, and it is still valid". -/
theorem recover_true_iff (eng : Engine E) (w : World E) (n : Nat) :
    ((w.recover eng n).1 = true ↔
        w.m_scene.isSome = true ∧ w.m_valid = true ∧
          (eng.recover n w.m_engine).1 = true ∧
          eng.has_error (eng.recover n w.m_engine).2 = false) ∧
      (w.m_scene = none → w.recover eng n = (false, w)) ∧
      ((w.recover eng n).1 = true → (w.recover eng n).2.m_valid = true) ∧
      (∀ (w0 : World E) (cs : List Call), w0.m_scene = none → w = w0.after eng cs →
        ((w.recover eng n).1 = true ↔
          (∃ pre s post, cs = pre ++ .init s :: post ∧
            (w0.after eng (pre ++ [.init s])).m_valid = true) ∧
          w.m_valid = true ∧
          (eng.recover n w.m_engine).1 = true ∧
          eng.has_error (eng.recover n w.m_engine).2 = false)) := by
  have hiff : (w.recover eng n).1 = true ↔
      w.m_scene.isSome = true ∧ w.m_valid = true ∧
        (eng.recover n w.m_engine).1 = true ∧
        eng.has_error (eng.recover n w.m_engine).2 = false := by
    cases w with
    | mk e sc v cl =>
      cases sc <;> cases v <;>
        cases hb : eng.has_error (eng.recover n e).2 <;>
        simp [recover, log, hb]
  refine ⟨hiff, ?_, ?_, ?_⟩
  · intro h
    simp [recover, h]
  · intro h
    obtain ⟨hs, hv, _, he⟩ := hiff.1 h
    cases w with
    | mk e sc v cl =>
      simp only at hv he
      subst hv
      cases sc with
      | none => simp at hs
      | some s0 => simp [recover, log, he]
  · intro w0 cs h0 hw
    rw [hiff]
    constructor
    · rintro ⟨hs, hv, h3, h4⟩
      subst hw
      exact ⟨(scene_bound_iff_successful_init eng w0 cs h0 hv).1 hs, hv, h3, h4⟩
    · rintro ⟨hinit, hv, h3, h4⟩
      subst hw
      exact ⟨(scene_bound_iff_successful_init eng w0 cs h0 hv).2 hinit, hv, h3, h4⟩

/-- On `counterEngine`, `recover` fails on the fresh world, which has no scene,
leaving it untouched and valid, and succeeds after a successful `init`,
leaving the world valid. -/
theorem recover_true_iff_witness :
    freshWorld.recover counterEngine 0 = (false, freshWorld) ∧
      ((freshWorld.after counterEngine [.init sceneOk]).recover counterEngine 0).1 = true ∧
      ((freshWorld.after counterEngine [.init sceneOk]).recover counterEngine 0).2.m_valid
        = true :=
  have h0 := recover_true_iff counterEngine freshWorld 0
  have h1 := recover_true_iff counterEngine (freshWorld.after counterEngine [.init sceneOk]) 0
  have ht : ((freshWorld.after counterEngine [.init sceneOk]).recover counterEngine 0).1 = true :=
    (h1.2.2.2 freshWorld [.init sceneOk] rfl rfl).2
      ⟨⟨[], sceneOk, [], rfl, by decide⟩, by decide, by decide, by decide⟩
  ⟨h0.2.1 rfl, ht, h1.2.2.1 ht⟩

end World

end core

end uipc
